import Mathlib

set_option maxRecDepth 100000

/-!
Verification of the FoodScan AI backend (src/api/main.py and src/api/analyzie.py).

The development shallowly embeds the two Python entry points:

* the FastAPI application in `main.py` (`configure_gemini`, `process_image`,
  `parse_gemini_response`, `analyze_food_image`), and
* the serverless `BaseHTTPRequestHandler` in `analyzie.py` (`handler.do_POST`,
  `handler.do_OPTIONS`).

Python strings are modelled as Lean `String`s (code-point sequences), Python's
`json.loads`/`json.dumps` as an executable parser/serializer pair over the
`JsonVal` type below, and the external libraries (`base64`, `PIL`, the Gemini
SDK, pydantic validation) as explicit oracle parameters of `Except`-returning
type, since their behaviour is outside this repository.

Model notes, stated once here:
* Python `str` may contain unpaired UTF-16 surrogates; Lean `Char` cannot.
  The embedded `json.loads` therefore rejects `\uXXXX` escapes that would
  produce a lone surrogate (real `json.loads` keeps them).  No claim below
  depends on such inputs.
* Non-integral JSON number literals become `JsonVal.fnum` carrying the exact
  source lexeme; real Python converts them to IEEE doubles.  The claims never
  compare float values, so the lexeme-level view is a sound abstraction.
* Error messages of `json.JSONDecodeError` encode source positions that the
  repository never reads; the model uses a fixed message for them.
-/

/-! ## Python string primitives (code-point level) -/

/-- Whitespace stripped by Python `str.strip()` (ASCII part; the repository
only ever strips ASCII text). -/
def isPySpace (c : Char) : Bool :=
  c == ' ' || c == '\t' || c == '\n' || c == '\r' || c == '\x0b' || c == '\x0c'

/-- Whitespace accepted by Python's JSON scanner (`' \t\n\r'`). -/
def isJsonWs (c : Char) : Bool :=
  c == ' ' || c == '\t' || c == '\n' || c == '\r'

/-- Index of the first occurrence of `needle` in `hay` (leftmost match), as in
Python `str.find` restricted to found results. -/
def substrIdx (hay needle : List Char) : Option Nat :=
  if needle.isPrefixOf hay then some 0
  else
    match hay with
    | [] => none
    | _ :: t => (substrIdx t needle).map (· + 1)

/-- Python `needle in hay` for strings. -/
def pyContains (hay needle : String) : Bool :=
  (substrIdx hay.data needle.data).isSome

/-- Python `hay.find(needle)`: leftmost index, or `-1` when absent. -/
def pyFind (hay needle : String) : Int :=
  match substrIdx hay.data needle.data with
  | some i => (i : Int)
  | none => -1

/-- Python `hay.find(needle, start)` for a non-negative `start` and non-empty
`needle` (the only shape the repository uses): the leftmost index at or after
`start`, or `-1`. -/
def pyFindFrom (hay needle : String) (start : Int) : Int :=
  let st := (max start 0).toNat
  match substrIdx (hay.data.drop st) needle.data with
  | some i => ((st + i : Nat) : Int)
  | none => -1

/-- Python slice `s[a:b]` with step 1: negative endpoints count from the end,
out-of-range endpoints are clamped. -/
def pySlice (s : String) (a b : Int) : String :=
  let n : Int := s.data.length
  let a2 : Int := if a < 0 then max (n + a) 0 else min a n
  let b2 : Int := if b < 0 then max (n + b) 0 else min b n
  String.mk ((s.data.take b2.toNat).drop a2.toNat)

/-- Python `s.strip()` (over the ASCII whitespace set above). -/
def pyStrip (s : String) : String :=
  String.mk (((s.data.dropWhile isPySpace).reverse.dropWhile isPySpace).reverse)

/-- Python `s.split(sep)` for a single-character separator. -/
def pySplitChar (s : String) (sep : Char) : List String :=
  (s.data.splitOnP (· == sep)).map String.mk

/-- Index of the first occurrence of character `c`. -/
def firstIdx (c : Char) : List Char → Option Nat
  | [] => none
  | x :: t => if x == c then some 0 else (firstIdx c t).map (· + 1)

/-- Index of the last occurrence of character `c`. -/
def lastIdx (c : Char) (cs : List Char) : Option Nat :=
  match firstIdx c cs.reverse with
  | some k => some (cs.length - 1 - k)
  | none => none

/-! ## Python exceptions

Only the distinctions the repository's `except` clauses make are needed:
`json.JSONDecodeError` is a subclass of `ValueError`; everything else the code
can raise (`AttributeError`, `IndexError`, `binascii.Error`, SDK errors) is
not. `msg` is Python `str(e)`. -/

inductive PyErr where
  | valueError (msg : String)
  | jsonDecodeError (msg : String)
  | attributeError (msg : String)
  | indexError (msg : String)
  | otherError (msg : String)
deriving DecidableEq

/-- Python `str(e)`. -/
def PyErr.msg : PyErr → String
  | .valueError m => m
  | .jsonDecodeError m => m
  | .attributeError m => m
  | .indexError m => m
  | .otherError m => m

/-- Whether `except ValueError` catches the exception
(`json.JSONDecodeError` and pydantic `ValidationError` are `ValueError`s). -/
def PyErr.isValueError : PyErr → Bool
  | .valueError _ => true
  | .jsonDecodeError _ => true
  | _ => false

/-! ## JSON values

`num` holds integral literals (Python `int`), `fnum` the exact lexeme of a
non-integral literal (Python `float`, including `NaN`, `Infinity`,
`-Infinity`). Objects are insertion-ordered key/value lists with distinct
keys, exactly like Python dicts. -/

inductive JsonVal where
  | null
  | bool (b : Bool)
  | num (n : Int)
  | fnum (lexeme : String)
  | str (s : String)
  | arr (elems : List JsonVal)
  | obj (members : List (String × JsonVal))

/-- Python `dict` lookup `d.get(key)` on the member list (keys are distinct,
so first match is the match). -/
def objGet? : List (String × JsonVal) → String → Option JsonVal
  | [], _ => none
  | (k, v) :: t, key => if k == key then some v else objGet? t key

/-- Python `dict.get(key, default)`. -/
def objGetD (m : List (String × JsonVal)) (key : String) (d : JsonVal) : JsonVal :=
  (objGet? m key).getD d

/-- Python dict insertion `d[k] = v`: replace in place if the key exists,
else append. -/
def insertKey : List (String × JsonVal) → String → JsonVal → List (String × JsonVal)
  | [], k, v => [(k, v)]
  | (k0, v0) :: t, k, v =>
      if k0 == k then (k0, v) :: t else (k0, v0) :: insertKey t k v

/-- Python type name of a JSON-decoded value, as used in `AttributeError`
messages. -/
def pyTypeName : JsonVal → String
  | .null => "NoneType"
  | .bool _ => "bool"
  | .num _ => "int"
  | .fnum _ => "float"
  | .str _ => "str"
  | .arr _ => "list"
  | .obj _ => "dict"

/-! ## json.loads — the decoder

Structured after CPython's `json.scanner`/`json.decoder` pure-Python scanner:
value dispatch on the first character, constants before the number regex,
`(-?(0|[1-9]\d*))(\.\d+)?([eE][-+]?\d+)?` for numbers, strict strings (raw
control characters rejected), and whitespace `' \t\n\r'` around structural
tokens. The parser is total via a fuel argument; one unit of fuel is spent per
recursive step, and every step consumes at least one input character, so
`length + 1` fuel suffices (see `parseVal_sound` machinery below). -/

/-- Skip JSON whitespace. -/
def skipWs (cs : List Char) : List Char := cs.dropWhile isJsonWs

/-- Decimal digit test. -/
def isDigitC (c : Char) : Bool := '0' ≤ c && c ≤ '9'

/-- Nonzero decimal digit test. -/
def isDigit19 (c : Char) : Bool := '1' ≤ c && c ≤ '9'

/-- Value of a decimal digit run, most significant first. -/
def digitsVal (ds : List Char) : Nat :=
  ds.foldl (fun acc c => acc * 10 + (c.toNat - 48)) 0

/-- Value of a hexadecimal digit, if any (both cases accepted, as in
`json.decoder`). -/
def hexVal (c : Char) : Option Nat :=
  if '0' ≤ c && c ≤ '9' then some (c.toNat - 48)
  else if 'a' ≤ c && c ≤ 'f' then some (c.toNat - 87)
  else if 'A' ≤ c && c ≤ 'F' then some (c.toNat - 55)
  else none

/-- Value of four hexadecimal digits. -/
def hex4Val (a b c d : Char) : Option Nat := do
  let va ← hexVal a
  let vb ← hexVal b
  let vc ← hexVal c
  let vd ← hexVal d
  pure (((va * 16 + vb) * 16 + vc) * 16 + vd)

/-- The fractional part `(\.\d+)?` of the number regex: present only when a
dot is directly followed by a digit. Returns the consumed lexeme part. -/
def scanFrac (cs : List Char) : List Char × List Char :=
  match cs with
  | c :: d :: r =>
      if c == '.' && isDigitC d then
        let (ds, r2) := List.span isDigitC r
        (c :: d :: ds, r2)
      else ([], cs)
  | _ => ([], cs)

/-- The exponent part `([eE][-+]?\d+)?` of the number regex: present only when
`e`/`E`, an optional sign, and at least one digit follow. -/
def scanExp (cs : List Char) : List Char × List Char :=
  match cs with
  | e :: r =>
      if e == 'e' || e == 'E' then
        match r with
        | s :: r1 =>
            if s == '+' || s == '-' then
              match r1 with
              | c :: r2 =>
                  if isDigitC c then
                    let (ds, r3) := List.span isDigitC r2
                    (e :: s :: c :: ds, r3)
                  else ([], cs)
              | [] => ([], cs)
            else if isDigitC s then
              let (ds, r2) := List.span isDigitC r1
              (e :: s :: ds, r2)
            else ([], cs)
        | [] => ([], cs)
      else ([], cs)
  | [] => ([], cs)

/-- Number scanning per `json.scanner.NUMBER_RE`: returns `int` for a match
without fraction and exponent, else a `float` carrying the matched lexeme. -/
def parseNumCore (neg : Bool) (cs1 : List Char) : Option (JsonVal × List Char) :=
  let intPart? : Option (List Char × List Char) :=
    match cs1 with
    | c :: r =>
        if c == '0' then some ([c], r)
        else if isDigit19 c then
          let (ds, r2) := List.span isDigitC r
          some (c :: ds, r2)
        else none
    | [] => none
  match intPart? with
  | none => none
  | some (intDs, r) =>
      let (fracDs, r2) := scanFrac r
      let (expDs, r3) := scanExp r2
      if fracDs.isEmpty && expDs.isEmpty then
        let v : Int := (digitsVal intDs : Int)
        some (.num (if neg then -v else v), r3)
      else
        let lex := (if neg then ['-'] else []) ++ intDs ++ fracDs ++ expDs
        some (.fnum (String.mk lex), r3)

/-- Number scanning, sign step (see `parseNumCore` for the rest). -/
def parseNum (cs : List Char) : Option (JsonVal × List Char) :=
  match cs with
  | c :: r => if c == '-' then parseNumCore true r else parseNumCore false cs
  | [] => parseNumCore false cs

/-- Decoding of the low-surrogate escape that must directly follow a
high-surrogate `\uXXXX` (value `n`): yields the combined astral scalar and
the remainder. -/
def lowSur (n : Nat) : List Char → Option (Nat × List Char)
  | '\\' :: 'u' :: g1 :: g2 :: g3 :: g4 :: r3 =>
      match hex4Val g1 g2 g3 g4 with
      | none => none
      | some m =>
          if 0xdc00 ≤ m && m ≤ 0xdfff then
            some (0x10000 + (n - 0xd800) * 0x400 + (m - 0xdc00), r3)
          else none
  | _ => none

/-- String-body scanner, after the opening quote. `json.decoder.scanstring`
with `strict=True`: raw control characters are rejected, the escapes
`\" \\ \/ \b \f \n \r \t \uXXXX` are decoded, and surrogate pairs are
combined. Lone-surrogate escapes are rejected (model restriction; see the
header note). Fuelled; one unit per decoded character. -/
def parseJStrBody : Nat → List Char → Option (List Char × List Char)
  | 0, _ => none
  | _ + 1, [] => none
  | fuel + 1, c :: rest =>
      if c == '"' then some ([], rest)
      else if c == '\\' then
        match rest with
        | [] => none
        | e :: r1 =>
            if e == 'u' then
              match r1 with
              | h1 :: h2 :: h3 :: h4 :: r2 =>
                  match hex4Val h1 h2 h3 h4 with
                  | none => none
                  | some n =>
                      if 0xd800 ≤ n && n ≤ 0xdbff then
                        match lowSur n r2 with
                        | none => none
                        | some (cp, r3) =>
                            (parseJStrBody fuel r3).map
                              (fun p => (Char.ofNat cp :: p.1, p.2))
                      else if 0xdc00 ≤ n && n ≤ 0xdfff then none
                      else
                        (parseJStrBody fuel r2).map (fun p => (Char.ofNat n :: p.1, p.2))
              | _ => none
            else
              match (if e == '"' then some '"'
                     else if e == '\\' then some '\\'
                     else if e == '/' then some '/'
                     else if e == 'b' then some '\x08'
                     else if e == 'f' then some '\x0c'
                     else if e == 'n' then some '\n'
                     else if e == 'r' then some '\r'
                     else if e == 't' then some '\t'
                     else none) with
              | some d => (parseJStrBody fuel r1).map (fun p => (d :: p.1, p.2))
              | none => none
      else if c.toNat < 0x20 then none
      else (parseJStrBody fuel rest).map (fun p => (c :: p.1, p.2))

/-- The keyword/number tail of the scanner dispatch: the literals `null`,
`true`, `false`, `NaN`, `Infinity`, `-Infinity`, and otherwise a number. -/
def parseAtom (cs : List Char) : Option (JsonVal × List Char) :=
  if cs.take 4 == ['n', 'u', 'l', 'l'] then some (.null, cs.drop 4)
  else if cs.take 4 == ['t', 'r', 'u', 'e'] then some (.bool true, cs.drop 4)
  else if cs.take 5 == ['f', 'a', 'l', 's', 'e'] then some (.bool false, cs.drop 5)
  else if cs.take 3 == ['N', 'a', 'N'] then some (.fnum ("NaN"), cs.drop 3)
  else if cs.take 8 == ['I', 'n', 'f', 'i', 'n', 'i', 't', 'y'] then
    some (.fnum ("Infinity"), cs.drop 8)
  else if cs.take 9 == ['-', 'I', 'n', 'f', 'i', 'n', 'i', 't', 'y'] then
    some (.fnum ("-Infinity"), cs.drop 9)
  else parseNum cs

mutual
/-- One JSON value at the head of the input (whitespace already consumed),
in the dispatch order of CPython's scanner. -/
def parseVal : Nat → List Char → Option (JsonVal × List Char)
  | 0, _ => none
  | _ + 1, [] => none
  | fuel + 1, c :: rest =>
      if c == '{' then
        match skipWs rest with
        | '}' :: r2 => some (.obj [], r2)
        | r2 => (parseMembers fuel r2 []).map (fun p => (.obj p.1, p.2))
      else if c == '[' then
        match skipWs rest with
        | ']' :: r2 => some (.arr [], r2)
        | r2 => (parseItems fuel r2 []).map (fun p => (.arr p.1, p.2))
      else if c == '"' then
        (parseJStrBody fuel rest).map (fun p => (.str (String.mk p.1), p.2))
      else
        parseAtom (c :: rest)

/-- One-or-more object members (the empty object is handled in `parseVal`).
`acc` is the dict built so far; duplicate keys overwrite in place, as for
Python dicts. -/
def parseMembers : Nat → List Char → List (String × JsonVal) →
    Option (List (String × JsonVal) × List Char)
  | 0, _, _ => none
  | fuel + 1, cs, acc =>
      match cs with
      | [] => none
      | c :: r =>
          if c == '"' then
            match parseJStrBody fuel r with
            | none => none
            | some (key, r1) =>
                match skipWs r1 with
                | ':' :: r2 =>
                    match parseVal fuel (skipWs r2) with
                    | none => none
                    | some (v, r3) =>
                        let acc2 := insertKey acc (String.mk key) v
                        match skipWs r3 with
                        | ',' :: r4 => parseMembers fuel (skipWs r4) acc2
                        | '}' :: r4 => some (acc2, r4)
                        | _ => none
                | _ => none
          else none

/-- One-or-more array items (the empty array is handled in `parseVal`). -/
def parseItems : Nat → List Char → List JsonVal →
    Option (List JsonVal × List Char)
  | 0, _, _ => none
  | fuel + 1, cs, acc =>
      match parseVal fuel cs with
      | none => none
      | some (v, r) =>
          match skipWs r with
          | ',' :: r2 => parseItems fuel (skipWs r2) (acc ++ [v])
          | ']' :: r2 => some (acc ++ [v], r2)
          | _ => none
end

/-- Python `json.loads`: a complete document, surrounding whitespace allowed,
trailing data rejected. `none` is `json.JSONDecodeError`. -/
def pyJsonLoads (s : String) : Option JsonVal :=
  match parseVal (s.data.length + 1) (skipWs s.data) with
  | some (v, rest) => if (skipWs rest).isEmpty then some v else none
  | none => none

/-! ## json.dumps — the encoder

Defaults of `json.dumps`: `ensure_ascii=True`, separators `", "` and `": "`.
`fnum` lexemes print verbatim (see the header note). -/

/-- Hexadecimal digit character, lowercase, as in `'\u%04x'`. -/
def hexDig : Nat → Char
  | 0 => '0' | 1 => '1' | 2 => '2' | 3 => '3' | 4 => '4'
  | 5 => '5' | 6 => '6' | 7 => '7' | 8 => '8' | 9 => '9'
  | 10 => 'a' | 11 => 'b' | 12 => 'c' | 13 => 'd' | 14 => 'e'
  | _ => 'f'

/-- Four lowercase hex digits of `n < 0x10000`. -/
def hex4Chars (n : Nat) : List Char :=
  [hexDig (n / 4096 % 16), hexDig (n / 256 % 16), hexDig (n / 16 % 16), hexDig (n % 16)]

/-- One character as `json.dumps` (with `ensure_ascii=True`) emits it:
`\" \\`, the five short escapes, printable ASCII verbatim, everything else as
`\uXXXX` (a surrogate pair beyond the BMP). -/
def encChar (c : Char) : List Char :=
  if c == '"' then ['\\', '"']
  else if c == '\\' then ['\\', '\\']
  else if c == '\n' then ['\\', 'n']
  else if c == '\r' then ['\\', 'r']
  else if c == '\t' then ['\\', 't']
  else if c == '\x08' then ['\\', 'b']
  else if c == '\x0c' then ['\\', 'f']
  else if 0x20 ≤ c.toNat && c.toNat ≤ 0x7e then [c]
  else if c.toNat < 0x10000 then '\\' :: 'u' :: hex4Chars c.toNat
  else
    '\\' :: 'u' :: hex4Chars (0xd800 + (c.toNat - 0x10000) / 0x400) ++
      ('\\' :: 'u' :: hex4Chars (0xdc00 + (c.toNat - 0x10000) % 0x400))

/-- A string body, escaped. -/
def encChars : List Char → List Char
  | [] => []
  | c :: t => encChar c ++ encChars t

/-- A quoted, escaped string literal. -/
def encStr (s : String) : List Char := '"' :: encChars s.data ++ ['"']

/-- Decimal digits of `n`, most significant first; structural on a fuel bound
so that the definition computes by kernel reduction. -/
def natCharsAux : Nat → Nat → List Char
  | 0, _ => []
  | fuel + 1, n =>
      if n < 10 then [hexDig n]
      else natCharsAux fuel (n / 10) ++ [hexDig (n % 10)]

/-- Decimal digits of `n`, most significant first (`n` itself bounds the
number of recursion steps). -/
def natChars (n : Nat) : List Char := natCharsAux (n + 1) n

/-- Python `repr` of an `int`. -/
def intChars (n : Int) : List Char :=
  if n < 0 then '-' :: natChars n.natAbs else natChars n.natAbs

mutual
/-- `json.dumps` of a value, as a character list. -/
def encVal : JsonVal → List Char
  | .null => ("null").data
  | .bool true => ("true").data
  | .bool false => ("false").data
  | .num n => intChars n
  | .fnum lex => lex.data
  | .str s => encStr s
  | .arr [] => ['[', ']']
  | .arr (v :: t) => '[' :: (encVal v ++ encItemsRest t) ++ [']']
  | .obj [] => ['{', '}']
  | .obj ((k, v) :: t) =>
      '{' :: (encStr k ++ ':' :: ' ' :: encVal v ++ encMembersRest t) ++ ['}']

/-- Trailing array items, each preceded by `", "`. -/
def encItemsRest : List JsonVal → List Char
  | [] => []
  | v :: t => ',' :: ' ' :: encVal v ++ encItemsRest t

/-- Trailing object members, each preceded by `", "`. -/
def encMembersRest : List (String × JsonVal) → List Char
  | [] => []
  | (k, v) :: t => ',' :: ' ' :: (encStr k ++ ':' :: ' ' :: encVal v) ++ encMembersRest t
end

/-- Python `json.dumps` with its default settings. -/
def pyJsonDumps (v : JsonVal) : String := String.mk (encVal v)

/-- The encoding of a non-empty item list without its surrounding brackets
(`encVal` on an array emits `'['`, then this, then `']'`). -/
def encItems1 : List JsonVal → List Char
  | [] => []
  | v :: t => encVal v ++ encItemsRest t

/-- The encoding of a non-empty member list without its surrounding braces. -/
def encMembers1 : List (String × JsonVal) → List Char
  | [] => []
  | (k, v) :: t => encStr k ++ ':' :: ' ' :: encVal v ++ encMembersRest t

/-! ## Python truthiness (`if not image_data:`) -/

/-- Whether a non-integral number lexeme denotes a nonzero float: `NaN` and
the infinities are truthy, otherwise some digit of the mantissa (before any
exponent marker) must be nonzero. -/
def fnumTruthy (s : String) : Bool :=
  s == "NaN" || s == "Infinity" || s == "-Infinity" ||
    (s.data.takeWhile (fun c => !(c == 'e' || c == 'E'))).any isDigit19

/-- Python truthiness of a JSON-decoded value: `None`, `False`, zero, empty
string/list/dict are falsy. -/
def pyTruthy : JsonVal → Bool
  | .null => false
  | .bool b => b
  | .num n => n != 0
  | .fnum lex => fnumTruthy lex
  | .str s => !s.data.isEmpty
  | .arr l => !l.isEmpty
  | .obj m => !m.isEmpty

/-! ## The Response Normalizer

`main.py` lines 88–140 and `analyzie.py` lines 77–109 contain the identical
candidate-extraction code; they differ in what happens around `json.loads`. -/

/-- The brace-delimited candidate: `re.search(r'\{.*\}', text, re.DOTALL)`.
With `.` matching everything and `.*` greedy, the match (when one exists)
runs from the first `'\x7b'` with some `'\x7d'` after it — equivalently the
first `'\x7b'` overall — to the last `'\x7d'` of the text. -/
def braceCandidate (t : String) : Option String :=
  match firstIdx '\x7b' t.data, lastIdx '\x7d' t.data with
  | some i, some j =>
      if i < j then some (String.mk ((t.data.drop i).take (j + 1 - i))) else none
  | _, _ => none

/-- The fence tag looked up by both normalizers. -/
def fenceTag : String := "```json"

/-- Candidate selection, verbatim from the source: the fenced branch slices
from just after the first occurrence of the tag to the next triple backtick
(`find` yielding `-1`, hence drop-the-last-character slicing, when there is
none) and strips the result; otherwise the greedy brace span; otherwise the
whole text. -/
def extractCandidate (response_text : String) : String :=
  if pyContains response_text fenceTag then
    let json_start : Int := pyFind response_text fenceTag + 7
    let json_end : Int := pyFindFrom response_text ("```") json_start
    pyStrip (pySlice response_text json_start json_end)
  else
    match braceCandidate response_text with
    | some m => m
    | none => response_text

/-- The seven-field record constructor shared by both defaulted outputs of
`parse_gemini_response` (field order is the Python dict-literal order). -/
def mkRecord (food freshness : JsonVal) (score cal : JsonVal)
    (nutrition summary recs : JsonVal) : JsonVal :=
  .obj [("food_name", food), ("freshness_level", freshness),
    ("freshness_score", score), ("estimated_calories", cal),
    ("nutrition_summary", nutrition), ("analysis_summary", summary),
    ("recommendations", recs)]

/-- The default `nutrition_summary` of `main.py`. -/
def defaultNutrition : JsonVal :=
  .obj [("protein", .str ("N/A")), ("carbs", .str ("N/A")),
    ("fat", .str ("N/A")), ("fiber", .str ("N/A"))]

/-- The `except json.JSONDecodeError` fallback dict of `main.py`
(lines 125–140): all defaults, `analysis_summary` = the raw reply text. -/
def fallbackRecord (response_text : String) : JsonVal :=
  mkRecord (.str ("Unknown food")) (.str ("Cannot determine")) (.num 50) (.num 0)
    defaultNutrition (.str response_text)
    (.arr [.str ("Try taking a photo with better lighting")])

/-- The `default_response` dict of `main.py` (lines 107–123): each field read
from the parsed dict with `result.get(field, default)`. -/
def buildResult (result : List (String × JsonVal)) (response_text : String) : JsonVal :=
  mkRecord
    (objGetD result ("food_name") (.str ("Unknown food")))
    (objGetD result ("freshness_level") (.str ("Cannot determine")))
    (objGetD result ("freshness_score") (.num 50))
    (objGetD result ("estimated_calories") (.num 0))
    (objGetD result ("nutrition_summary") defaultNutrition)
    (objGetD result ("analysis_summary") (.str response_text))
    (objGetD result ("recommendations")
      (.arr [.str ("Try taking a photo with better lighting")]))

/-- `parse_gemini_response` of `main.py`: extract a candidate, `json.loads`
it (a `JSONDecodeError` falls back to `fallbackRecord`), then read the seven
fields with `result.get`.  When the candidate parses to a non-dict, Python
evaluates `result.get(...)` on an `int`/`list`/`str`/…, raising an
`AttributeError` that no `except` clause in the function catches. -/
def parse_gemini_response (response_text : String) : Except PyErr JsonVal :=
  match pyJsonLoads (extractCandidate response_text) with
  | none => .ok (fallbackRecord response_text)
  | some (.obj result) => .ok (buildResult result response_text)
  | some v =>
      .error (.attributeError
        ("\x27" ++ pyTypeName v ++ "\x27 object has no attribute \x27get\x27"))

/-- The inline fallback dict of `analyzie.py` (lines 94–109); note the
different strings compared with `fallbackRecord`. -/
def analyzieFallback (response_text : String) : JsonVal :=
  mkRecord (.str ("Unknown")) (.str ("tidak dapat ditentukan")) (.num 50) (.num 0)
    defaultNutrition (.str response_text)
    (.arr [.str ("Coba ambil foto dengan pencahayaan lebih baik")])

/-- The normalization performed by `analyzie.py` (lines 77–109): on a
successful parse the decoded value is used verbatim — no field defaulting —
and on `JSONDecodeError` the inline fallback dict is used. -/
def analyzieNormalize (response_text : String) : JsonVal :=
  match pyJsonLoads (extractCandidate response_text) with
  | some result => result
  | none => analyzieFallback response_text

/-! ## The serverless handler (`analyzie.py`) -/

/-- An HTTP response as the handler assembles it: status, the headers sent
via `send_header` in order, and the body bytes (here: text). -/
structure HttpResponse where
  status : Nat
  headers : List (String × String)
  body : String
deriving DecidableEq

/-- The `Content-type` header every branch sends. -/
def ctJson : String × String := ("Content-type", "application/json")

/-- The wildcard CORS header. -/
def acaoStar : String × String := ("Access-Control-Allow-Origin", "*")

/-- The CORS methods header. -/
def acamHdr : String × String := ("Access-Control-Allow-Methods", "POST, OPTIONS")

/-- The CORS request-headers header. -/
def acahHdr : String × String := ("Access-Control-Allow-Headers", "Content-Type")

/-- The early 400 response for a missing/falsy `image` value: note that it
sends no CORS header. -/
def noImageResponse : HttpResponse :=
  ⟨400, [ctJson], pyJsonDumps (.obj [("error", .str ("No image data provided"))])⟩

/-- The early 500 response for a missing `GEMINI_API_KEY`: no CORS header
here either. -/
def noKeyResponse : HttpResponse :=
  ⟨500, [ctJson], pyJsonDumps (.obj [("error", .str ("Gemini API key not configured"))])⟩

/-- The environment of one `do_POST` call: the credential as
`os.environ.get` sees it, plus the two external calls the handler makes.
`b64decode` is `base64.b64decode` on the text after the first comma;
`generate` is `model.generate_content(...)` followed by `.text`, returning
the model's reply text.  Image bytes are `List Nat`. -/
structure AnalyzeEnv where
  apiKey : Option String
  b64decode : String → Except PyErr (List Nat)
  generate : List Nat → Except PyErr String

/-- The body of the `try` block of `handler.do_POST`, up to the successful
200 response; every raised exception is returned as `.error`.  Reading
`Content-Length` and UTF-8-decoding the body are elided: `post_data` is the
decoded request body (failures there land in the same blanket handler). -/
def doPOSTBody (env : AnalyzeEnv) (post_data : String) : Except PyErr HttpResponse :=
  match pyJsonLoads post_data with
  | none => .error (.jsonDecodeError ("Expecting value"))
  | some data =>
    match data with
    | .obj m =>
      match objGet? m ("image") with
      | none => .ok noImageResponse
      | some imageVal =>
        if !pyTruthy imageVal then .ok noImageResponse
        else
          match env.apiKey with
          | none => .ok noKeyResponse
          | some key =>
            if key.data.isEmpty then .ok noKeyResponse
            else
              match imageVal with
              | .str imageStr =>
                match (pySplitChar imageStr ',').get? 1 with
                | none => .error (.indexError ("list index out of range"))
                | some part =>
                  match env.b64decode part with
                  | .error e => .error e
                  | .ok image_bytes =>
                    match env.generate image_bytes with
                    | .error e => .error e
                    | .ok response_text =>
                        .ok ⟨200, [ctJson, acaoStar, acamHdr, acahHdr],
                          pyJsonDumps (analyzieNormalize response_text)⟩
              | v =>
                  .error (.attributeError
                    ("\x27" ++ pyTypeName v ++ "\x27 object has no attribute \x27split\x27"))
    | v =>
        .error (.attributeError
          ("\x27" ++ pyTypeName v ++ "\x27 object has no attribute \x27get\x27"))

/-- `handler.do_POST`: the `try` body above, with the blanket
`except Exception` translating any exception into a 500 response carrying
`\x7b"error": str(e)\x7d` and the CORS header. -/
def doPOST (env : AnalyzeEnv) (post_data : String) : HttpResponse :=
  match doPOSTBody env post_data with
  | .ok r => r
  | .error e =>
      ⟨500, [ctJson, acaoStar], pyJsonDumps (.obj [("error", .str e.msg)])⟩

/-- `handler.do_OPTIONS`: the CORS preflight response. -/
def doOPTIONS : HttpResponse := ⟨200, [acaoStar, acamHdr, acahHdr], ""⟩

/-! ## The FastAPI application (`main.py`) -/

/-- An abstract PIL image: the attributes `process_image` consults. -/
structure PImage where
  mode : String
  width : Nat
  height : Nat

/-- The environment of one `analyze_food_image` call.  `convert` and
`thumbnail` are the PIL operations (modelled total — their failures would be
caught by the same handler as `imageOpen`); `saveJpeg` is
`image.save(buffer, format='JPEG')` plus `getvalue()`; `validate` is
`AnalysisResponse(**result)` — pydantic validation, whose `ValidationError`
is a `ValueError` subclass. -/
structure MainEnv where
  apiKey : Option String
  b64decode : String → Except PyErr (List Nat)
  imageOpen : List Nat → Except PyErr PImage
  convert : PImage → PImage
  thumbnail : PImage → PImage
  saveJpeg : PImage → Except PyErr (List Nat)
  generate : List Nat → Except PyErr String
  validate : JsonVal → Except PyErr JsonVal

/-- `configure_gemini`: raise `ValueError` when the environment variable is
unset (or empty — `if not api_key`); otherwise configure the SDK. -/
def configure_gemini (apiKey : Option String) : Except PyErr Unit :=
  match apiKey with
  | none => .error (.valueError ("GEMINI_API_KEY environment variable is not set"))
  | some key =>
      if key.data.isEmpty then
        .error (.valueError ("GEMINI_API_KEY environment variable is not set"))
      else .ok ()

/-- The data-URL prefix strip of `process_image`: when a comma is present the
code keeps `image_data.split(',')[1]` — the piece between the first and the
second comma (guarded by the `in` check, so index 1 exists). -/
def stripDataUrl (image_data : String) : String :=
  if pyContains image_data (",") then (pySplitChar image_data ',').getD 1 ("")
  else image_data

/-- `process_image`: strip any data-URL prefix, base64-decode, open, convert
to RGB if needed, thumbnail if oversized.  The enclosing
`except Exception as e` re-raises everything as
`ValueError("Error processing image: " + str(e))`. -/
def process_image (env : MainEnv) (image_data : String) (_mime_type : Option String) :
    Except PyErr PImage :=
  let steps : Except PyErr PImage :=
    match env.b64decode (stripDataUrl image_data) with
    | .error e => .error e
    | .ok image_bytes =>
      match env.imageOpen image_bytes with
      | .error e => .error e
      | .ok image0 =>
        let image1 := if image0.mode != "RGB" then env.convert image0 else image0
        .ok (if max image1.width image1.height > 1024 then env.thumbnail image1 else image1)
  match steps with
  | .ok image => .ok image
  | .error e => .error (.valueError ("Error processing image: " ++ e.msg))

/-- The outcome of the `/api/analyze` endpoint: a 200 with the validated
result, or an `HTTPException`, which FastAPI renders as that status with the
body `\x7b"detail": <detail>\x7d`. -/
inductive MainOutcome where
  | ok (body : JsonVal)
  | httpError (status : Nat) (detail : String)

/-- `analyze_food_image`: configure, preprocess, call the model, normalize,
validate; `except ValueError` (which also catches the configuration error
and pydantic's `ValidationError`) maps to 400, `except Exception` to 500
with the `"Error analyzing image: "` prefix. -/
def analyze_food_image (env : MainEnv) (image : String) (mime : Option String) :
    MainOutcome :=
  let steps : Except PyErr JsonVal :=
    match configure_gemini env.apiKey with
    | .error e => .error e
    | .ok _ =>
      match process_image env image mime with
      | .error e => .error e
      | .ok img =>
        match env.saveJpeg img with
        | .error e => .error e
        | .ok image_bytes =>
          match env.generate image_bytes with
          | .error e => .error e
          | .ok response_text =>
            match parse_gemini_response response_text with
            | .error e => .error e
            | .ok result => env.validate result
  match steps with
  | .ok v => .ok v
  | .error e =>
      if e.isValueError then .httpError 400 e.msg
      else .httpError 500 ("Error analyzing image: " ++ e.msg)

/-- Modelled from the pydantic request model `ImageAnalysisRequest`
(`image: str`, `mime_type: Optional[str] = "image/jpeg"`): FastAPI rejects a
body whose `image` is absent or not a string with a 422 validation-error
response before the endpoint function runs. -/
def parseImageAnalysisRequest (body : JsonVal) : Except Unit (String × Option String) :=
  match body with
  | .obj m =>
      match objGet? m ("image") with
      | some (.str s) =>
          match objGet? m ("mime_type") with
          | none => .ok (s, some ("image/jpeg"))
          | some .null => .ok (s, none)
          | some (.str t) => .ok (s, some t)
          | some _ => .error ()
      | _ => .error ()
  | _ => .error ()

/-- `POST /api/analyze` including FastAPI's request validation: a 422 for an
invalid body, else the endpoint function. -/
def fastapiAnalyze (env : MainEnv) (body : JsonVal) : MainOutcome :=
  match parseImageAnalysisRequest body with
  | .error _ => .httpError 422 ("request validation error")
  | .ok (image, mime) => analyze_food_image env image mime

/-! ## The response schema (`AnalysisResponse`, `NutritionInfo`) -/

/-- The seven required field names of `AnalysisResponse`, in declaration
order. -/
def sevenKeys : List String :=
  ["food_name", "freshness_level", "freshness_score", "estimated_calories",
    "nutrition_summary", "analysis_summary", "recommendations"]

/-- String test. -/
def isStrV : JsonVal → Bool
  | .str _ => true
  | _ => false

/-- `NutritionInfo`: the four string fields must be present. -/
def nutritionOk : JsonVal → Bool
  | .obj m =>
      (["protein", "carbs", "fat", "fiber"]).all
        (fun k => ((objGet? m k).map isStrV).getD false)
  | _ => false

/-- Type conformance of one field value against the `AnalysisResponse`
declaration (JSON-type level: pydantic's lax numeric coercions are not
modelled; the claims only use the string/int mismatch direction, which
pydantic does reject). -/
def fieldOk (key : String) (v : JsonVal) : Bool :=
  if key == "freshness_score" || key == "estimated_calories" then
    match v with
    | .num _ => true
    | _ => false
  else if key == "nutrition_summary" then nutritionOk v
  else if key == "recommendations" then
    match v with
    | .arr l => l.all isStrV
    | _ => false
  else isStrV v

/-- Full schema conformance: an object carrying all seven fields with
conformant values. -/
def conformant (v : JsonVal) : Bool :=
  match v with
  | .obj m => sevenKeys.all (fun k => ((objGet? m k).map (fieldOk k)).getD false)
  | _ => false

/-! ## Claim-side candidate-selection definitions (for C5 and C10)

These two follow the claims' wording, to be compared with
`extractCandidate`, which follows the source. -/

/-! ## Auxiliary definitions used by the claim statements -/

/-- Field access on a JSON value that is expected to be an object. -/
def objGetV? (v : JsonVal) (key : String) : Option JsonVal :=
  match v with
  | .obj m => objGet? m key
  | _ => none

/-- The string payload of a JSON string value. -/
def strOf : JsonVal → Option String
  | .str s => some s
  | _ => none

/-- The fixed default of `parse_gemini_response` for each of the seven
fields (`analysis_summary` defaults to the raw reply text). -/
def defaultFor (key : String) (response_text : String) : JsonVal :=
  if key == "food_name" then .str ("Unknown food")
  else if key == "freshness_level" then .str ("Cannot determine")
  else if key == "freshness_score" then .num 50
  else if key == "estimated_calories" then .num 0
  else if key == "nutrition_summary" then defaultNutrition
  else if key == "analysis_summary" then .str response_text
  else .arr [.str ("Try taking a photo with better lighting")]

/-- A character that could extend a JSON number literal to its left. -/
def numContChar (c : Char) : Bool :=
  isDigitC c || c == '.' || c == 'e' || c == 'E'

/-- A remainder that cannot extend a serialized number: empty or starting
with a non-continuation character (every delimiter `json.dumps` emits
qualifies). -/
def restSafe : List Char → Bool
  | [] => true
  | c :: _ => !numContChar c

/-- A float lexeme is coherent when the number scanner reproduces it exactly
and completely. -/
def fnumLexOk (s : String) : Bool :=
  match parseNum s.data with
  | some (.fnum l, rest) => rest.isEmpty && l == s
  | _ => false

/-- Distinctness of the keys of an object member list (a Python dict
invariant). -/
def keysNodupB : List (String × JsonVal) → Bool
  | [] => true
  | (k, _) :: t => t.all (fun p => p.1 != k) && keysNodupB t

mutual
/-- Well-formedness of a decoded JSON value: distinct object keys and
coherent float lexemes, hereditarily. Every value `pyJsonLoads` produces is
well-formed, and well-formed values round-trip through `pyJsonDumps`. -/
def wfVal : JsonVal → Bool
  | .null => true
  | .bool _ => true
  | .num _ => true
  | .fnum s => s == "NaN" || s == "Infinity" || s == "-Infinity" || fnumLexOk s
  | .str _ => true
  | .arr l => wfItems l
  | .obj m => keysNodupB m && wfMembers m

/-- All array elements well-formed. -/
def wfItems : List JsonVal → Bool
  | [] => true
  | v :: t => wfVal v && wfItems t

/-- All member values well-formed. -/
def wfMembers : List (String × JsonVal) → Bool
  | [] => true
  | (_, v) :: t => wfVal v && wfMembers t
end

/-- Emptiness or a head that fails `p` (used to state where scanning
stops). -/
def headNot (p : Char → Bool) : List Char → Bool
  | [] => true
  | c :: _ => !p c

/-- The integer part of the number regex: `0 | [1-9][0-9]*`. -/
def intShape : List Char → Bool
  | [] => false
  | c :: t => (c == '0' && t.isEmpty) || (isDigit19 c && t.all isDigitC)

/-- A one-or-more digit run. -/
def someDigits : List Char → Bool
  | [] => false
  | d :: t => isDigitC d && t.all isDigitC

/-- The optional fraction part: empty or `.` followed by one-or-more
digits. -/
def fracShape : List Char → Bool
  | [] => true
  | c :: t => c == '.' && someDigits t

/-- The optional exponent part: empty or `e`/`E`, an optional sign, and
one-or-more digits. -/
def expShape : List Char → Bool
  | [] => true
  | [_] => false
  | e :: s :: t =>
      (e == 'e' || e == 'E') &&
        (if s == '+' || s == '-' then someDigits t else someDigits (s :: t))

/-- A concrete serverless-handler environment for evaluating `doPOST` at
specific inputs: the credential is set, base64 decoding fails the way
`base64.b64decode` fails on undecodable text, and the model returns a fixed
reply. -/
def sampleAnalyzeEnv : AnalyzeEnv where
  apiKey := some ("key")
  b64decode := fun _ => .error (.otherError ("Invalid base64-encoded string: number of data characters cannot be 1 more than a multiple of 4"))
  generate := fun _ => .ok ("reply")

/-- A concrete FastAPI-side environment in which every external call
succeeds and the model's reply text is `"42"` — a minimal valid-JSON,
non-object reply. -/
def mainEnvReply42 : MainEnv where
  apiKey := some ("key")
  b64decode := fun _ => .ok [1]
  imageOpen := fun _ => .ok ⟨"RGB", 10, 10⟩
  convert := id
  thumbnail := id
  saveJpeg := fun _ => .ok [1]
  generate := fun _ => .ok ("42")
  validate := fun v => .ok v

/-- A concrete FastAPI-side environment whose base64 decoding fails (as it
does on text that is not valid base64). -/
def mainEnvBadB64 : MainEnv where
  apiKey := some ("key")
  b64decode := fun _ => .error (.otherError ("Invalid base64-encoded string: invalid padding"))
  imageOpen := fun _ => .ok ⟨"RGB", 10, 10⟩
  convert := id
  thumbnail := id
  saveJpeg := fun _ => .ok [1]
  generate := fun _ => .ok ("reply")
  validate := fun v => .ok v

/-- Candidate selection exactly as claim C5 states it: the substring between
the first json fence and its closing fence (to the end of the text when no
closing fence follows), else the greedy brace span, else the whole text.
No stripping — the claim mentions none. -/
def specC5Candidate (t : String) : String :=
  match substrIdx t.data fenceTag.data with
  | some i =>
      let after := t.data.drop (i + 7)
      match substrIdx after ("```").data with
      | some j => String.mk (after.take j)
      | none => String.mk after
  | none =>
      match braceCandidate t with
      | some m => m
      | none => t

/-- Candidate selection as amended: as claim C5, except that the fenced
branch strips surrounding whitespace, and a missing closing fence truncates
the remainder by one character (C10) before stripping. -/
def specAmendedCandidate (t : String) : String :=
  match substrIdx t.data fenceTag.data with
  | some i =>
      let after := t.data.drop (i + 7)
      match substrIdx after ("```").data with
      | some j => pyStrip (String.mk (after.take j))
      | none => pyStrip (String.mk after.dropLast)
  | none =>
      match braceCandidate t with
      | some m => m
      | none => t

/-! # Theorems -/

/-- Rebuilding a string from its character data is the identity. -/
theorem strMk_data (s : String) : String.mk s.data = s := by cases s; rfl

/-- Claim C1 (code_bug): `parse_gemini_response` absorbs only
`json.JSONDecodeError`.  A reply that is valid JSON but not an object — here
the reply text `"42"` — makes `result.get` raise an `AttributeError`, which
the endpoint's `except Exception` arm turns into an HTTP 500, not a 200 with
the default record. -/
theorem C1_nondict_reply_maps_to_500 :
    parse_gemini_response ("42") =
      .error (.attributeError ("\x27int\x27 object has no attribute \x27get\x27")) ∧
    analyze_food_image mainEnvReply42 ("image") (some ("image/jpeg")) =
      .httpError 500
        ("Error analyzing image: \x27int\x27 object has no attribute \x27get\x27") :=
  ⟨rfl, rfl⟩

/-- Claim C4 (code_bug): with `GEMINI_API_KEY` unset the FastAPI endpoint
responds 400, because `configure_gemini`'s `ValueError` is caught by the
`except ValueError` arm intended for image errors; the claim (and §6 of the
spec) requires 500.  The serverless handler does answer 500, third conjunct. -/
theorem C4_missing_key_status :
    analyze_food_image { mainEnvReply42 with apiKey := none } ("img") (some ("image/jpeg")) =
      .httpError 400 ("GEMINI_API_KEY environment variable is not set") ∧
    doPOST { sampleAnalyzeEnv with apiKey := none } ("\x7b\"image\": \"abc\"\x7d") =
      noKeyResponse ∧
    noKeyResponse.status = 500 :=
  ⟨rfl, rfl, rfl⟩

/-- Claim C2 (corrected), counterexample: on the parse-failing reply
`"hello"` the serverless handler's normalizer answers
`food_name = "Unknown"` (with Indonesian default strings), not the
`"Unknown food"` record the claim fixes for every Normalizer output. -/
theorem C2_counterexample :
    pyJsonLoads (extractCandidate ("hello")) = none ∧
    analyzieNormalize ("hello") = analyzieFallback ("hello") ∧
    objGetV? (analyzieNormalize ("hello")) ("food_name") = some (.str ("Unknown")) ∧
    (("Unknown" : String) == ("Unknown food" : String)) = false :=
  ⟨rfl, rfl, rfl, by decide⟩

/-- Claim C2 (corrected), amended: `main.py`'s `parse_gemini_response`
returns exactly the claimed complete default record — `analysis_summary`
being the raw reply text — whenever the extracted candidate fails to parse. -/
theorem C2_amended (text : String)
    (h : pyJsonLoads (extractCandidate text) = none) :
    parse_gemini_response text =
      .ok (.obj [("food_name", .str ("Unknown food")),
        ("freshness_level", .str ("Cannot determine")),
        ("freshness_score", .num 50), ("estimated_calories", .num 0),
        ("nutrition_summary", .obj [("protein", .str ("N/A")), ("carbs", .str ("N/A")),
          ("fat", .str ("N/A")), ("fiber", .str ("N/A"))]),
        ("analysis_summary", .str text),
        ("recommendations", .arr [.str ("Try taking a photo with better lighting")])]) := by
  unfold parse_gemini_response
  rw [h]
  rfl

/-- Witness for `C2_amended`: the reply `"hello"` has no fence, no brace
span, and is not JSON. -/
theorem C2_amended_witness :
    parse_gemini_response ("hello") =
      .ok (.obj [("food_name", .str ("Unknown food")),
        ("freshness_level", .str ("Cannot determine")),
        ("freshness_score", .num 50), ("estimated_calories", .num 0),
        ("nutrition_summary", .obj [("protein", .str ("N/A")), ("carbs", .str ("N/A")),
          ("fat", .str ("N/A")), ("fiber", .str ("N/A"))]),
        ("analysis_summary", .str ("hello")),
        ("recommendations", .arr [.str ("Try taking a photo with better lighting")])]) :=
  C2_amended ("hello") rfl

/-- Claim C3 (corrected), counterexample: the serverless handler returns the
parsed record verbatim — here a one-field record, six fields absent — and
`main.py` copies a present field of the wrong type through unvalidated
(`food_name = 5`), so "all seven fields with type-conformant values" fails. -/
theorem C3_counterexample :
    analyzieNormalize ("\x7b\"food_name\": \"Apple\"\x7d") =
      .obj [("food_name", .str ("Apple"))] ∧
    objGetV? (analyzieNormalize ("\x7b\"food_name\": \"Apple\"\x7d")) ("freshness_level") =
      none ∧
    parse_gemini_response ("\x7b\"food_name\": 5\x7d") =
      .ok (buildResult [("food_name", .num 5)] ("\x7b\"food_name\": 5\x7d")) ∧
    objGetV? (buildResult [("food_name", .num 5)] ("\x7b\"food_name\": 5\x7d")) ("food_name") =
      some (.num 5) ∧
    conformant (buildResult [("food_name", .num 5)] ("\x7b\"food_name\": 5\x7d")) = false :=
  ⟨rfl, rfl, rfl, rfl, by decide⟩

/-- Claim C3 (corrected), amended: on every successfully parsed object,
`parse_gemini_response` yields a record carrying all seven fields, each
equal to the parsed field when present and to its fixed, type-conformant
default when absent (present fields are copied through without validation;
the serverless handler performs no such defaulting at all). -/
theorem C3_amended (text : String) (m : List (String × JsonVal))
    (h : pyJsonLoads (extractCandidate text) = some (.obj m)) :
    parse_gemini_response text = .ok (buildResult m text) ∧
    (∀ k ∈ sevenKeys, objGetV? (buildResult m text) k =
      some ((objGet? m k).getD (defaultFor k text))) ∧
    (∀ k ∈ sevenKeys, fieldOk k (defaultFor k text) = true) := by
  refine ⟨by unfold parse_gemini_response; rw [h], ?_, ?_⟩
  · intro k hk
    simp only [sevenKeys, List.mem_cons, List.not_mem_nil, or_false] at hk
    rcases hk with rfl | rfl | rfl | rfl | rfl | rfl | rfl <;>
      simp +decide [buildResult, mkRecord, objGetV?, objGet?, objGetD, defaultFor]
  · intro k hk
    simp only [sevenKeys, List.mem_cons, List.not_mem_nil, or_false] at hk
    rcases hk with rfl | rfl | rfl | rfl | rfl | rfl | rfl <;>
      simp +decide [fieldOk, defaultFor, defaultNutrition, nutritionOk, isStrV, objGet?]

/-- Witness for `C3_amended`: the reply `\x7b"x": 1\x7d` parses to a
one-member object. -/
theorem C3_amended_witness :
    parse_gemini_response ("\x7b\"x\": 1\x7d") =
      .ok (buildResult [("x", .num 1)] ("\x7b\"x\": 1\x7d")) :=
  (C3_amended ("\x7b\"x\": 1\x7d") [("x", .num 1)] rfl).1

/-- Claim C9 (corrected), counterexample: the missing-image 400 response of
the serverless handler carries no `Access-Control-Allow-Origin` header. -/
theorem C9_counterexample :
    doPOST sampleAnalyzeEnv ("\x7b\x7d") = noImageResponse ∧
    (doPOST sampleAnalyzeEnv ("\x7b\x7d")).status = 400 ∧
    (doPOST sampleAnalyzeEnv ("\x7b\x7d")).headers = [ctJson] ∧
    (decide (acaoStar ∈ (doPOST sampleAnalyzeEnv ("\x7b\x7d")).headers)) = false :=
  ⟨rfl, rfl, rfl, by decide⟩

/-- Claim C9 (corrected), amended: every serverless-handler response except
the early missing-image 400 and missing-credential 500 — that is, the
success response, the blanket 500 response, and the OPTIONS preflight —
carries `Access-Control-Allow-Origin: *`. -/
theorem C9_amended (env : AnalyzeEnv) (post_data : String) :
    (acaoStar ∈ (doPOST env post_data).headers ∨
      doPOST env post_data = noImageResponse ∨
      doPOST env post_data = noKeyResponse) ∧
    acaoStar ∈ doOPTIONS.headers := by
  refine ⟨?_, by simp [doOPTIONS]⟩
  unfold doPOST
  cases hb : doPOSTBody env post_data with
  | error e => left; simp
  | ok r =>
    unfold doPOSTBody at hb
    repeat' split at hb
    any_goals cases hb
    all_goals simp_all

/-- Claim C7 (corrected), counterexample: for the body `\x7b\x7d` (no
`image` key) the FastAPI entry point rejects the request at pydantic
validation with status 422, not the claimed 400 with
`\x7b"error": "No image data provided"\x7d`. -/
theorem C7_counterexample :
    parseImageAnalysisRequest (.obj []) = .error () ∧
    fastapiAnalyze mainEnvReply42 (.obj []) = .httpError 422 ("request validation error") ∧
    (((422 : Nat)) == 400) = false :=
  ⟨rfl, rfl, by decide⟩

/-- Claim C7 (corrected), amended: the serverless handler answers every
missing-or-falsy-image request with exactly the claimed 400 response, while
the FastAPI application answers a body without a (string) `image` with a 422
validation error instead. -/
theorem C7_amended :
    (∀ (env : AnalyzeEnv) (post_data : String) (m : List (String × JsonVal)),
      pyJsonLoads post_data = some (.obj m) →
      (objGet? m ("image") = none ∨
        (∃ v, objGet? m ("image") = some v ∧ pyTruthy v = false)) →
      doPOST env post_data = noImageResponse) ∧
    noImageResponse = ⟨400, [ctJson], ("\x7b\"error\": \"No image data provided\"\x7d")⟩ ∧
    (∀ (env : MainEnv) (m : List (String × JsonVal)),
      objGet? m ("image") = none →
      fastapiAnalyze env (.obj m) = .httpError 422 ("request validation error")) := by
  refine ⟨?_, rfl, ?_⟩
  · intro env post_data m h1 h2
    rcases h2 with hnone | ⟨v, hv, hfalse⟩
    · simp [doPOST, doPOSTBody, h1, hnone]
    · simp [doPOST, doPOSTBody, h1, hv, hfalse]
  · intro env m h
    simp [fastapiAnalyze, parseImageAnalysisRequest, h]

/-- Claim C6 (corrected), counterexample: in the serverless handler an
image value that is not valid base64 (here `"xxx"`, which also has no
data-URL comma, so even the `split(',')[1]` indexing fails) surfaces as the
blanket 500 response, not as a 400. -/
theorem C6_counterexample :
    doPOST sampleAnalyzeEnv ("\x7b\"image\": \"xxx\"\x7d") =
      ⟨500, [ctJson, acaoStar],
        ("\x7b\"error\": \"list index out of range\"\x7d")⟩ ∧
    (((500 : Nat)) == 400) = false :=
  ⟨rfl, by decide⟩

/-- Claim C6 (corrected), amended: in the FastAPI application every base64
or image-open failure is re-raised by `process_image` as a `ValueError`
whose message starts `"Error processing image: "` and reaches the caller as
an HTTP 400 — never as an unhandled fault; in the serverless handler a
decode failure is caught by the blanket handler and answered with its 500
response instead. -/
theorem C6_amended :
    (∀ (env : MainEnv) (image : String) (mime : Option String) (key : String),
      env.apiKey = some key → key.data.isEmpty = false →
      ((∃ e, env.b64decode (stripDataUrl image) = .error e) ∨
        (∃ bs e, env.b64decode (stripDataUrl image) = .ok bs ∧
          env.imageOpen bs = .error e)) →
      ∃ msg,
        process_image env image mime =
          .error (.valueError ("Error processing image: " ++ msg)) ∧
        analyze_food_image env image mime =
          .httpError 400 ("Error processing image: " ++ msg)) ∧
    (∀ (env : AnalyzeEnv) (post_data : String) (m : List (String × JsonVal))
        (s part key : String) (e : PyErr),
      pyJsonLoads post_data = some (.obj m) →
      objGet? m ("image") = some (.str s) →
      pyTruthy (.str s) = true →
      env.apiKey = some key → key.data.isEmpty = false →
      (pySplitChar s ',').get? 1 = some part →
      env.b64decode part = .error e →
      doPOST env post_data =
        ⟨500, [ctJson, acaoStar], pyJsonDumps (.obj [("error", .str e.msg)])⟩) := by
  constructor
  · intro env image mime key hkey hne hfail
    rcases hfail with ⟨e, he⟩ | ⟨bs, e, hbs, he⟩
    · refine ⟨e.msg, ?_, ?_⟩
      · simp [process_image, he]
      · simp [analyze_food_image, configure_gemini, hkey, hne, process_image, he,
          PyErr.isValueError, PyErr.msg]
    · refine ⟨e.msg, ?_, ?_⟩
      · simp [process_image, hbs, he]
      · simp [analyze_food_image, configure_gemini, hkey, hne, process_image, hbs, he,
          PyErr.isValueError, PyErr.msg]
  · intro env post_data m s part key e h1 h2 h3 hkey hne hsplit hdec
    simp only [List.get?_eq_getElem?] at hsplit
    simp [doPOST, doPOSTBody, h1, h2, h3, hkey, hne, hsplit, hdec]

/-- A found substring fits inside the haystack. -/
theorem substrIdx_bound : ∀ (hay nd : List Char) (i : Nat),
    substrIdx hay nd = some i → i + nd.length ≤ hay.length := by
  intro hay
  induction hay with
  | nil =>
    intro nd i h
    unfold substrIdx at h
    split at h
    · rename_i hpre
      cases h
      simpa using (List.isPrefixOf_iff_prefix.mp hpre).length_le
    · simp at h
  | cons c t ih =>
    intro nd i h
    unfold substrIdx at h
    split at h
    · rename_i hpre
      cases h
      simpa using (List.isPrefixOf_iff_prefix.mp hpre).length_le
    · simp only [Option.map_eq_some'] at h
      obtain ⟨j, hj, rfl⟩ := h
      have := ih nd j hj
      simp only [List.length_cons]
      omega

/-- `pySlice` over in-range non-negative endpoints is drop-then-take. -/
theorem pySlice_nat (s : String) (a b : Nat) (hb : b ≤ s.data.length) :
    pySlice s (a : Int) (b : Int) = String.mk ((s.data.drop a).take (b - a)) := by
  unfold pySlice
  have hna : ¬ ((a : Int) < 0) := by omega
  have hnb : ¬ ((b : Int) < 0) := by omega
  simp only [if_neg hna, if_neg hnb]
  have h2 : (min (b : Int) (s.data.length : Int)).toNat = b := by omega
  rw [h2]
  by_cases ha : a ≤ s.data.length
  · have h1 : (min (a : Int) (s.data.length : Int)).toNat = a := by omega
    rw [h1, List.drop_take]
  · have h1 : (min (a : Int) (s.data.length : Int)).toNat = s.data.length := by omega
    rw [h1]
    have hd1 : (s.data.take b).drop s.data.length = [] :=
      List.drop_eq_nil_of_le (by simp only [List.length_take]; omega)
    have hd2 : s.data.drop a = [] := List.drop_eq_nil_of_le (by omega)
    rw [hd1, hd2]
    simp

/-- `pySlice` to `-1` is drop-then-dropLast. -/
theorem pySlice_neg_one (s : String) (a : Nat) :
    pySlice s (a : Int) (-1) = String.mk ((s.data.drop a).dropLast) := by
  unfold pySlice
  have hna : ¬ ((a : Int) < 0) := by omega
  have hnb : ((-1 : Int) < 0) := by omega
  simp only [if_neg hna, if_pos hnb]
  have h2 : (max ((s.data.length : Int) + -1) 0).toNat = s.data.length - 1 := by omega
  rw [h2]
  by_cases ha : a ≤ s.data.length
  · have h1 : (min (a : Int) (s.data.length : Int)).toNat = a := by omega
    rw [h1]
    rw [List.drop_take, List.dropLast_eq_take, List.length_drop,
      (by omega : s.data.length - 1 - a = s.data.length - a - 1)]
  · have h1 : (min (a : Int) (s.data.length : Int)).toNat = s.data.length := by omega
    rw [h1]
    have hd1 : (s.data.take (s.data.length - 1)).drop s.data.length = [] :=
      List.drop_eq_nil_of_le (by simp)
    have hd2 : s.data.drop a = [] := List.drop_eq_nil_of_le (by omega)
    rw [hd1, hd2]
    simp

/-- Claim C5 (corrected), counterexample: for the reply
`"```json\n\x7b\x7d\n```"` the code's candidate is the stripped `"\x7b\x7d"`,
not the raw between-fences substring `"\n\x7b\x7d\n"` the claim names. -/
theorem C5_counterexample :
    extractCandidate ("```json\n\x7b\x7d\n```") = ("\x7b\x7d") ∧
    specC5Candidate ("```json\n\x7b\x7d\n```") = ("\n\x7b\x7d\n") ∧
    ((extractCandidate ("```json\n\x7b\x7d\n```")) ==
      (specC5Candidate ("```json\n\x7b\x7d\n```"))) = false :=
  ⟨rfl, rfl, by decide⟩

/-- Claim C10 (corrected), counterexample: with an unterminated fence the
code takes the after-fence text minus its final character and then strips
it; for `"```json  \x7b"` that yields `""`, not the raw `"  "` slice the
claim describes. -/
theorem C10_counterexample :
    pyContains ("```json  \x7b") fenceTag = true ∧
    pyFindFrom ("```json  \x7b") ("```") (pyFind ("```json  \x7b") fenceTag + 7) = -1 ∧
    extractCandidate ("```json  \x7b") = ("") ∧
    String.mk ((("```json  \x7b") : String).data.drop 7).dropLast = ("  ") ∧
    ((("") : String) == ("  ")) = false :=
  ⟨rfl, rfl, rfl, rfl, by decide⟩

/-- Claim C5 (corrected), amended: the code's candidate selection agrees
everywhere with the claimed three-branch selection once the fenced branch is
read as stripping surrounding whitespace and, for a fence with no closing
fence, as ending one character before the end of the text (C10). -/
theorem C5_amended (t : String) : extractCandidate t = specAmendedCandidate t := by
  unfold extractCandidate specAmendedCandidate
  cases hf : substrIdx t.data fenceTag.data with
  | none =>
    have hpc : pyContains t fenceTag = false := by simp [pyContains, hf]
    rw [hpc]
    simp
  | some i =>
    have hpc : pyContains t fenceTag = true := by simp [pyContains, hf]
    rw [hpc]
    have hlen7 : fenceTag.data.length = 7 := rfl
    have hi7 : i + 7 ≤ t.data.length := by
      have h := substrIdx_bound t.data fenceTag.data i hf
      omega
    have hfind : pyFind t fenceTag = (i : Int) := by
      unfold pyFind
      rw [hf]
    have hcast : (i : Int) + 7 = ((i + 7 : Nat) : Int) := by push_cast; ring
    simp only [if_true, hfind, hcast]
    have hst : (max (((i + 7 : Nat) : Int)) 0).toNat = i + 7 := by omega
    unfold pyFindFrom
    simp only [hst]
    cases hc : substrIdx (t.data.drop (i + 7)) (("```") : String).data with
    | some j =>
      have hj : j + 3 ≤ t.data.length - (i + 7) := by
        have h := substrIdx_bound (t.data.drop (i + 7)) (("```") : String).data j hc
        have h2 : (t.data.drop (i + 7)).length = t.data.length - (i + 7) :=
          List.length_drop _ _
        have h3 : ((("```") : String).data).length = 3 := rfl
        omega
      rw [pySlice_nat t (i + 7) (i + 7 + j) (by omega)]
      rw [(by omega : i + 7 + j - (i + 7) = j)]
    | none =>
      rw [pySlice_neg_one t (i + 7)]

/-- Claim C10 (corrected), amended: when the text has a json fence but no
closing triple backtick after it, the closing-fence search does yield `-1`,
and the candidate is the substring from just after the fence tag up to but
excluding the last character, with surrounding whitespace stripped. -/
theorem C10_amended (t : String) (i : Nat)
    (hf : substrIdx t.data fenceTag.data = some i)
    (hc : substrIdx (t.data.drop (i + 7)) (("```") : String).data = none) :
    pyFindFrom t ("```") (pyFind t fenceTag + 7) = -1 ∧
    extractCandidate t = pyStrip (String.mk ((t.data.drop (i + 7)).dropLast)) := by
  have hfind : pyFind t fenceTag = (i : Int) := by
    unfold pyFind
    rw [hf]
  have hcast : (i : Int) + 7 = ((i + 7 : Nat) : Int) := by push_cast; ring
  have hst : (max (((i + 7 : Nat) : Int)) 0).toNat = i + 7 := by omega
  have hff : pyFindFrom t ("```") (pyFind t fenceTag + 7) = -1 := by
    rw [hfind, hcast]
    unfold pyFindFrom
    simp only [hst, hc]
  refine ⟨hff, ?_⟩
  unfold extractCandidate
  have hpc : pyContains t fenceTag = true := by simp [pyContains, hf]
  rw [hpc]
  simp only [if_true, hfind, hcast, hff]
  rw [hfind, hcast] at hff
  rw [hff, pySlice_neg_one t (i + 7)]

/-- Witness for `C10_amended`: the text `"```json  \x7b"` has its fence at
index 0 and no closing fence; the candidate is the stripped empty string. -/
theorem C10_amended_witness :
    pyFindFrom ("```json  \x7b") ("```")
      (pyFind ("```json  \x7b") fenceTag + 7) = -1 ∧
    extractCandidate ("```json  \x7b") =
      pyStrip (String.mk (((("```json  \x7b") : String).data.drop (0 + 7)).dropLast)) :=
  C10_amended ("```json  \x7b") 0 rfl rfl

/-! ## Round-trip machinery: decimal digits -/

/-- Hex digit characters decode to their values. -/
theorem hexVal_hexDig (d : Nat) (h : d < 16) : hexVal (hexDig d) = some d := by
  interval_cases d <;> decide

/-- Digit characters emitted for `d < 10` are decimal digits. -/
theorem hexDig_isDigit (d : Nat) (h : d < 10) : isDigitC (hexDig d) = true := by
  interval_cases d <;> decide

/-- The code of an emitted digit character. -/
theorem hexDig_toNat (d : Nat) (h : d < 10) : (hexDig d).toNat = 48 + d := by
  interval_cases d <;> decide

/-- A nonzero emitted digit is a `1`–`9` digit. -/
theorem hexDig_19 (d : Nat) (h1 : 1 ≤ d) (h2 : d < 10) : isDigit19 (hexDig d) = true := by
  interval_cases d <;> decide

/-- `natCharsAux` ignores its fuel beyond `n`. -/
theorem natCharsAux_irrel : ∀ (n f g : Nat), n < f → n < g →
    natCharsAux f n = natCharsAux g n := by
  intro n
  induction n using Nat.strong_induction_on with
  | _ n ih =>
    intro f g hf hg
    cases f with
    | zero => omega
    | succ f =>
      cases g with
      | zero => omega
      | succ g =>
        unfold natCharsAux
        by_cases h : n < 10
        · simp [h]
        · simp only [if_neg h]
          rw [ih (n / 10) (by omega) f g (by omega) (by omega)]

/-- The recurrence of `natChars`. -/
theorem natChars_unfold (n : Nat) :
    natChars n = if n < 10 then [hexDig n] else natChars (n / 10) ++ [hexDig (n % 10)] := by
  by_cases h : n < 10
  · rw [if_pos h]
    unfold natChars natCharsAux
    simp [h]
  · rw [if_neg h]
    have step : natCharsAux (n + 1) n = natCharsAux n (n / 10) ++ [hexDig (n % 10)] := by
      conv_lhs => unfold natCharsAux
      simp [h]
    show natCharsAux (n + 1) n = _
    rw [step, natCharsAux_irrel (n / 10) n (n / 10 + 1) (by omega) (by omega)]
    rfl

/-- Digit strings consist of decimal digits. -/
theorem natChars_digits (n : Nat) : ∀ c ∈ natChars n, isDigitC c = true := by
  induction n using Nat.strong_induction_on with
  | _ n ih =>
    rw [natChars_unfold]
    by_cases h : n < 10
    · simp only [if_pos h, List.mem_singleton]
      rintro c rfl
      exact hexDig_isDigit n h
    · simp only [if_neg h, List.mem_append, List.mem_singleton]
      rintro c (hc | rfl)
      · exact ih (n / 10) (by omega) c hc
      · exact hexDig_isDigit (n % 10) (by omega)

/-- The digit string of a positive number: a nonzero leading digit followed
by digits. -/
theorem natChars_head_pos (n : Nat) (h : 1 ≤ n) :
    ∃ c t, natChars n = c :: t ∧ isDigit19 c = true ∧ t.all isDigitC = true := by
  induction n using Nat.strong_induction_on with
  | _ n ih =>
    rw [natChars_unfold]
    by_cases h10 : n < 10
    · refine ⟨hexDig n, [], ?_, hexDig_19 n h h10, rfl⟩
      simp [h10]
    · obtain ⟨c, t, hct, hc, ht⟩ := ih (n / 10) (by omega) (by omega)
      refine ⟨c, t ++ [hexDig (n % 10)], ?_, hc, ?_⟩
      · simp [if_neg h10, hct]
      · have hd := hexDig_isDigit (n % 10) (by omega)
        simp [List.all_append, ht, hd]

/-- `natChars 0` is the single zero digit. -/
theorem natChars_zero : natChars 0 = ['0'] := rfl

/-- Folding one more digit. -/
theorem digitsVal_append_digit (xs : List Char) (d : Char) :
    digitsVal (xs ++ [d]) = digitsVal xs * 10 + (d.toNat - 48) := by
  unfold digitsVal
  rw [List.foldl_append]
  rfl

/-- The digit string of `n` evaluates back to `n`. -/
theorem digitsVal_natChars (n : Nat) : digitsVal (natChars n) = n := by
  induction n using Nat.strong_induction_on with
  | _ n ih =>
    rw [natChars_unfold]
    by_cases h : n < 10
    · simp only [if_pos h]
      show digitsVal ([] ++ [hexDig n]) = n
      rw [digitsVal_append_digit, hexDig_toNat n h]
      simp [digitsVal]
    · simp only [if_neg h]
      rw [digitsVal_append_digit, ih (n / 10) (by omega), hexDig_toNat (n % 10) (by omega)]
      omega

/-! ## Round-trip machinery: character classes and scanning -/

/-- A `1`–`9` digit is a digit. -/
theorem isDigit19_isDigitC (c : Char) (h : isDigit19 c = true) : isDigitC c = true := by
  simp only [isDigit19, Bool.and_eq_true, decide_eq_true_eq] at h
  simp only [isDigitC, Bool.and_eq_true, decide_eq_true_eq]
  obtain ⟨h1, h2⟩ := h
  refine ⟨?_, h2⟩
  calc ('0' : Char) ≤ '1' := by decide
    _ ≤ c := h1

/-- A digit is not a dot, an exponent marker, a sign, or a quote. -/
theorem digit_ne_dot (c : Char) (h : isDigitC c = true) : c ≠ '.' := by
  rintro rfl; exact absurd h (by decide)

theorem digit_ne_e (c : Char) (h : isDigitC c = true) : c ≠ 'e' := by
  rintro rfl; exact absurd h (by decide)

theorem digit_ne_E (c : Char) (h : isDigitC c = true) : c ≠ 'E' := by
  rintro rfl; exact absurd h (by decide)

theorem digit_ne_plus (c : Char) (h : isDigitC c = true) : (c == '+' || c == '-') = false := by
  cases hc : c == '+' with
  | true =>
    rw [beq_iff_eq] at hc
    subst hc
    exact absurd h (by decide)
  | false =>
    cases hc2 : c == '-' with
    | true =>
      rw [beq_iff_eq] at hc2
      subst hc2
      exact absurd h (by decide)
    | false => rfl

/-- A `1`–`9` digit is not `'0'` and not `'-'`. -/
theorem digit19_ne_zero (c : Char) (h : isDigit19 c = true) : c ≠ '0' := by
  rintro rfl; exact absurd h (by decide)

theorem digit19_ne_minus (c : Char) (h : isDigit19 c = true) : c ≠ '-' := by
  rintro rfl; exact absurd h (by decide)

/-- What a safe remainder's head is not. -/
theorem restSafe_facts (c : Char) (t : List Char) (h : restSafe (c :: t) = true) :
    isDigitC c = false ∧ c ≠ '.' ∧ c ≠ 'e' ∧ c ≠ 'E' := by
  simp only [restSafe, numContChar, Bool.not_eq_true', Bool.or_eq_false_iff,
    beq_eq_false_iff_ne] at h
  exact ⟨h.1.1.1, h.1.1.2, h.1.2, h.2⟩

/-- `dropWhile` leaves a failing head (or nothing). -/
theorem dropWhile_headNot (p : Char → Bool) (l : List Char) :
    headNot p (l.dropWhile p) = true := by
  induction l with
  | nil => rfl
  | cons c t ih =>
    rw [List.dropWhile_cons]
    split
    · exact ih
    · rename_i hpc
      rw [Bool.not_eq_true] at hpc
      simp [headNot, hpc]

/-- `takeWhile`/`dropWhile` on an all-digits run followed by a non-digit. -/
theorem takeWhile_digits (ds rest : List Char) (hds : ds.all isDigitC = true)
    (hrest : headNot isDigitC rest = true) :
    (ds ++ rest).takeWhile isDigitC = ds ∧ (ds ++ rest).dropWhile isDigitC = rest := by
  induction ds with
  | nil =>
    simp only [List.nil_append]
    cases rest with
    | nil => exact ⟨rfl, rfl⟩
    | cons c t =>
      simp only [headNot, Bool.not_eq_true'] at hrest
      rw [List.takeWhile_cons, List.dropWhile_cons]
      simp [hrest]
  | cons d t ih =>
    simp only [List.all_cons, Bool.and_eq_true] at hds
    obtain ⟨ih1, ih2⟩ := ih hds.2
    simp [List.takeWhile_cons, List.dropWhile_cons, hds.1, ih1, ih2]

/-- `span` on an all-digits run followed by a non-digit. -/
theorem span_digits (ds rest : List Char) (hds : ds.all isDigitC = true)
    (hrest : headNot isDigitC rest = true) :
    List.span isDigitC (ds ++ rest) = (ds, rest) := by
  obtain ⟨h1, h2⟩ := takeWhile_digits ds rest hds hrest
  rw [List.span_eq_take_drop, h1, h2]

/-- A head that is no dot stops the fraction scanner. -/
theorem scanFrac_stop (cs : List Char)
    (h : headNot (fun c => c == '.') cs = true) : scanFrac cs = ([], cs) := by
  cases cs with
  | nil => rfl
  | cons c t =>
    cases t with
    | nil => rfl
    | cons d r =>
      simp only [headNot, Bool.not_eq_true'] at h
      simp [scanFrac, h]

/-- The fraction scanner consumes exactly a well-shaped fraction. -/
theorem scanFrac_take (d : Char) (ds tail : List Char) (hd : isDigitC d = true)
    (hds : ds.all isDigitC = true) (htail : headNot isDigitC tail = true) :
    scanFrac ('.' :: d :: (ds ++ tail)) = ('.' :: d :: ds, tail) := by
  simp [scanFrac, hd, span_digits ds tail hds htail, List.span_eq_take_drop,
    (takeWhile_digits ds tail hds htail).1, (takeWhile_digits ds tail hds htail).2]

/-- A head that is no exponent marker stops the exponent scanner. -/
theorem scanExp_stop (cs : List Char)
    (h : headNot (fun c => c == 'e' || c == 'E') cs = true) : scanExp cs = ([], cs) := by
  cases cs with
  | nil => rfl
  | cons e t =>
    simp only [headNot, Bool.not_eq_true'] at h
    simp [scanExp, h]

/-- The exponent scanner, unsigned form. -/
theorem scanExp_take (e d : Char) (ds tail : List Char)
    (he : (e == 'e' || e == 'E') = true) (hd : isDigitC d = true)
    (hds : ds.all isDigitC = true) (htail : headNot isDigitC tail = true) :
    scanExp (e :: d :: (ds ++ tail)) = (e :: d :: ds, tail) := by
  simp [scanExp, he, digit_ne_plus d hd, hd, List.span_eq_take_drop,
    (takeWhile_digits ds tail hds htail).1, (takeWhile_digits ds tail hds htail).2]

/-- The exponent scanner, signed form. -/
theorem scanExp_take_signed (e s d : Char) (ds tail : List Char)
    (he : (e == 'e' || e == 'E') = true) (hs : (s == '+' || s == '-') = true)
    (hd : isDigitC d = true) (hds : ds.all isDigitC = true)
    (htail : headNot isDigitC tail = true) :
    scanExp (e :: s :: d :: (ds ++ tail)) = (e :: s :: d :: ds, tail) := by
  simp [scanExp, he, hs, hd, List.span_eq_take_drop,
    (takeWhile_digits ds tail hds htail).1, (takeWhile_digits ds tail hds htail).2]

/-- An exponent marker is not a digit and not a dot. -/
theorem expHead_facts (e : Char) (he : (e == 'e' || e == 'E') = true) :
    isDigitC e = false ∧ (e == '.') = false := by
  rcases Bool.or_eq_true_iff.mp he with h | h <;>
    (rw [beq_iff_eq] at h; subst h; exact ⟨by decide, by decide⟩)

/-- After a shaped exponent and a safe rest, no digit follows. -/
theorem headNot_digit_exp (expDs rest : List Char)
    (hexp : expShape expDs = true) (hrest : restSafe rest = true) :
    headNot isDigitC (expDs ++ rest) = true := by
  cases expDs with
  | nil =>
    cases rest with
    | nil => rfl
    | cons c t => simp [headNot, (restSafe_facts c t hrest).1]
  | cons e t =>
    cases t with
    | nil => simp [expShape] at hexp
    | cons s t2 =>
      simp only [expShape, Bool.and_eq_true] at hexp
      simp [headNot, (expHead_facts e hexp.1).1]

/-- After a shaped exponent and a safe rest, no dot follows. -/
theorem headNot_dot_exp (expDs rest : List Char)
    (hexp : expShape expDs = true) (hrest : restSafe rest = true) :
    headNot (fun c => c == '.') (expDs ++ rest) = true := by
  cases expDs with
  | nil =>
    cases rest with
    | nil => rfl
    | cons c t =>
      obtain ⟨-, h2, -, -⟩ := restSafe_facts c t hrest
      simp [headNot, h2]
  | cons e t =>
    cases t with
    | nil => simp [expShape] at hexp
    | cons s t2 =>
      simp only [expShape, Bool.and_eq_true] at hexp
      simp [headNot, (expHead_facts e hexp.1).2]

/-- A safe rest does not begin with an exponent marker. -/
theorem headNot_e_rest (rest : List Char) (hrest : restSafe rest = true) :
    headNot (fun c => c == 'e' || c == 'E') rest = true := by
  cases rest with
  | nil => rfl
  | cons c t =>
    obtain ⟨-, -, h3, h4⟩ := restSafe_facts c t hrest
    simp [headNot, h3, h4]

/-- The fraction scanner on fraction ++ exponent ++ safe rest. -/
theorem scanFrac_full (fracDs expDs rest : List Char) (hfrac : fracShape fracDs = true)
    (hexp : expShape expDs = true) (hrest : restSafe rest = true) :
    scanFrac (fracDs ++ (expDs ++ rest)) = (fracDs, expDs ++ rest) := by
  cases fracDs with
  | nil =>
    simp only [List.nil_append]
    exact scanFrac_stop _ (headNot_dot_exp expDs rest hexp hrest)
  | cons c t =>
    simp only [fracShape, Bool.and_eq_true] at hfrac
    obtain ⟨hc, ht⟩ := hfrac
    rw [beq_iff_eq] at hc
    subst hc
    cases t with
    | nil => simp [someDigits] at ht
    | cons d ds =>
      simp only [someDigits, Bool.and_eq_true] at ht
      have harr : ('.' :: d :: ds) ++ (expDs ++ rest) =
          '.' :: d :: (ds ++ (expDs ++ rest)) := by simp
      rw [harr, scanFrac_take d ds (expDs ++ rest) ht.1 ht.2
        (headNot_digit_exp expDs rest hexp hrest)]

/-- A safe rest has no digit head. -/
theorem headNot_digit_rest (rest : List Char) (hrest : restSafe rest = true) :
    headNot isDigitC rest = true := by
  cases rest with
  | nil => rfl
  | cons c t => simp [headNot, (restSafe_facts c t hrest).1]

/-- The exponent scanner on exponent ++ safe rest. -/
theorem scanExp_full (expDs rest : List Char) (hexp : expShape expDs = true)
    (hrest : restSafe rest = true) :
    scanExp (expDs ++ rest) = (expDs, rest) := by
  cases expDs with
  | nil =>
    simp only [List.nil_append]
    exact scanExp_stop rest (headNot_e_rest rest hrest)
  | cons e t =>
    cases t with
    | nil => simp [expShape] at hexp
    | cons s t2 =>
      simp only [expShape, Bool.and_eq_true] at hexp
      obtain ⟨he, ht⟩ := hexp
      by_cases hs : (s == '+' || s == '-') = true
      · rw [if_pos hs] at ht
        cases t2 with
        | nil => simp [someDigits] at ht
        | cons d t3 =>
          simp only [someDigits, Bool.and_eq_true] at ht
          have harr : (e :: s :: d :: t3) ++ rest = e :: s :: d :: (t3 ++ rest) := by simp
          rw [harr, scanExp_take_signed e s d t3 rest he hs ht.1 ht.2
            (headNot_digit_rest rest hrest)]
      · rw [if_neg hs] at ht
        cases t2 with
        | nil =>
          simp only [someDigits, Bool.and_eq_true, List.all_nil] at ht
          have harr : (e :: s :: []) ++ rest = e :: s :: ([] ++ rest) := by simp
          rw [harr, scanExp_take e s [] rest he ht.1 (by rfl)
            (headNot_digit_rest rest hrest)]
        | cons d t3 =>
          simp only [someDigits, Bool.and_eq_true, List.all_cons] at ht
          have harr : (e :: s :: d :: t3) ++ rest = e :: s :: ((d :: t3) ++ rest) := by simp
          rw [harr, scanExp_take e s (d :: t3) rest he ht.1
            (by simp [ht.2.1, ht.2.2]) (headNot_digit_rest rest hrest)]

/-- No digit follows a shaped fraction-exponent-rest block. -/
theorem headNot_digit_frac (fracDs expDs rest : List Char)
    (hfrac : fracShape fracDs = true) (hexp : expShape expDs = true)
    (hrest : restSafe rest = true) :
    headNot isDigitC (fracDs ++ (expDs ++ rest)) = true := by
  cases fracDs with
  | nil => exact headNot_digit_exp expDs rest hexp hrest
  | cons c t =>
    simp only [fracShape, Bool.and_eq_true] at hfrac
    obtain ⟨hc, -⟩ := hfrac
    rw [beq_iff_eq] at hc
    subst hc
    simp [headNot, isDigitC]

/-- The number scanner on a decomposed well-shaped number followed by a safe
rest: it consumes exactly the number and classifies it as `int` or `float`. -/
theorem parseNum_build (neg : Bool) (intDs fracDs expDs rest : List Char)
    (hint : intShape intDs = true) (hfrac : fracShape fracDs = true)
    (hexp : expShape expDs = true) (hrest : restSafe rest = true) :
    parseNum ((if neg then ['-'] else []) ++ intDs ++ fracDs ++ expDs ++ rest) =
      some (if fracDs.isEmpty && expDs.isEmpty then
              .num (if neg then -(digitsVal intDs : Int) else (digitsVal intDs : Int))
            else
              .fnum (String.mk ((if neg then ['-'] else []) ++ intDs ++ fracDs ++ expDs)),
        rest) := by
  have hfracscan := scanFrac_full fracDs expDs rest hfrac hexp hrest
  have hexpscan := scanExp_full expDs rest hexp hrest
  have hheadfrac := headNot_digit_frac fracDs expDs rest hfrac hexp hrest
  cases intDs with
  | nil => simp [intShape] at hint
  | cons c t =>
    simp only [intShape, Bool.or_eq_true, Bool.and_eq_true] at hint
    rcases hint with ⟨hc0, hte⟩ | ⟨h19, hta⟩
    · rw [beq_iff_eq] at hc0
      subst hc0
      rw [List.isEmpty_iff] at hte
      subst hte
      cases neg with
      | false =>
        simp only [Bool.false_eq_true, if_false, List.nil_append, List.cons_append,
          List.append_assoc]
        unfold parseNum parseNumCore
        simp [hfracscan, hexpscan, List.append_assoc]
        split <;> rfl
      | true =>
        simp only [if_pos rfl, List.cons_append, List.nil_append, List.append_assoc]
        unfold parseNum parseNumCore
        simp [hfracscan, hexpscan, List.append_assoc]
        split <;> rfl
    · have hcm : (c == '-') = false := by
        rw [beq_eq_false_iff_ne]
        exact digit19_ne_minus c h19
      have hc0 : (c == '0') = false := by
        rw [beq_eq_false_iff_ne]
        exact digit19_ne_zero c h19
      have htd := takeWhile_digits t (fracDs ++ (expDs ++ rest)) hta hheadfrac
      cases neg with
      | false =>
        simp only [Bool.false_eq_true, if_false, List.nil_append, List.cons_append,
          List.append_assoc]
        unfold parseNum parseNumCore
        simp [hcm, hc0, h19, htd.1, htd.2, hfracscan, hexpscan, List.append_assoc]
        split <;> rfl
      | true =>
        simp only [if_pos rfl, List.cons_append, List.nil_append, List.append_assoc]
        unfold parseNum parseNumCore
        simp [hcm, hc0, h19, htd.1, htd.2, hfracscan, hexpscan, List.append_assoc]
        split <;> rfl

/-- All elements kept by `takeWhile` satisfy the test. -/
theorem takeWhile_all (p : Char → Bool) (l : List Char) :
    (l.takeWhile p).all p = true := by
  rw [List.all_eq_true]
  intro c hc
  exact List.mem_takeWhile_imp hc

/-- What the fraction scanner returns: a prefix decomposition with a
well-shaped fraction. -/
theorem scanFrac_shape (cs ds r : List Char) (h : scanFrac cs = (ds, r)) :
    ds ++ r = cs ∧ fracShape ds = true := by
  unfold scanFrac at h
  split at h
  · rename_i c d r0
    split at h
    · rename_i hcond
      simp only [Bool.and_eq_true] at hcond
      simp only [List.span_eq_take_drop, Prod.mk.injEq] at h
      obtain ⟨rfl, rfl⟩ := h
      constructor
      · simp [List.takeWhile_append_dropWhile]
      · simp only [fracShape, someDigits, Bool.and_eq_true]
        exact ⟨hcond.1, hcond.2, takeWhile_all _ _⟩
    · cases h
      exact ⟨rfl, rfl⟩
  · cases h
    exact ⟨rfl, rfl⟩

/-- What the exponent scanner returns: a prefix decomposition with a
well-shaped exponent. -/
theorem scanExp_shape (cs ds r : List Char) (h : scanExp cs = (ds, r)) :
    ds ++ r = cs ∧ expShape ds = true := by
  unfold scanExp at h
  split at h
  · rename_i e r0
    split at h
    · rename_i he
      split at h
      · rename_i s r1
        split at h
        · rename_i hs
          split at h
          · rename_i d r2
            split at h
            · rename_i hd
              simp only [List.span_eq_take_drop, Prod.mk.injEq] at h
              obtain ⟨rfl, rfl⟩ := h
              constructor
              · simp [List.takeWhile_append_dropWhile]
              · simp only [expShape, Bool.and_eq_true, if_pos hs]
                exact ⟨he, by simp [someDigits, hd, takeWhile_all]⟩
            · cases h
              exact ⟨rfl, rfl⟩
          · cases h
            exact ⟨rfl, rfl⟩
        · rename_i hs
          rw [Bool.not_eq_true] at hs
          split at h
          · rename_i hd
            simp only [List.span_eq_take_drop, Prod.mk.injEq] at h
            obtain ⟨rfl, rfl⟩ := h
            constructor
            · simp [List.takeWhile_append_dropWhile]
            · simp [expShape, someDigits, hs, hd, takeWhile_all, he]
          · cases h
            exact ⟨rfl, rfl⟩
      · cases h
        exact ⟨rfl, rfl⟩
    · cases h
      exact ⟨rfl, rfl⟩
  · cases h
    exact ⟨rfl, rfl⟩

/-- What a successful number scan (after the sign) looks like: the input
splits into shaped integer, fraction and exponent parts before the
remainder, and the value is the `int`/`float` classification of those
parts. -/
theorem parseNumCore_shape (neg : Bool) (cs1 : List Char) (v : JsonVal)
    (rest : List Char) (h : parseNumCore neg cs1 = some (v, rest)) :
    ∃ intDs fracDs expDs,
      cs1 = intDs ++ fracDs ++ expDs ++ rest ∧
      intShape intDs = true ∧ fracShape fracDs = true ∧ expShape expDs = true ∧
      v = (if fracDs.isEmpty && expDs.isEmpty then
            .num (if neg then -(digitsVal intDs : Int) else (digitsVal intDs : Int))
          else
            .fnum (String.mk ((if neg then ['-'] else []) ++ intDs ++ fracDs ++ expDs))) := by
  cases cs1 with
  | nil => simp [parseNumCore] at h
  | cons c r =>
    by_cases hc0 : (c == '0') = true
    · rw [beq_iff_eq] at hc0
      subst hc0
      rcases hsf : scanFrac r with ⟨fds, r2⟩
      rcases hse : scanExp r2 with ⟨eds, r3⟩
      obtain ⟨hr1, hshape1⟩ := scanFrac_shape r fds r2 hsf
      obtain ⟨hr2, hshape2⟩ := scanExp_shape r2 eds r3 hse
      simp only [parseNumCore, beq_self_eq_true, if_true, hsf, hse] at h
      split at h
      · rename_i hcond
        simp only [Option.some.injEq, Prod.mk.injEq] at h
        obtain ⟨hv, hr3⟩ := h
        subst hr3
        refine ⟨['0'], fds, eds, ?_, by decide, hshape1, hshape2, ?_⟩
        · simp [← hr1, ← hr2, List.append_assoc]
        · rw [if_pos hcond]
          exact hv.symm
      · rename_i hcond
        simp only [Option.some.injEq, Prod.mk.injEq] at h
        obtain ⟨hv, hr3⟩ := h
        subst hr3
        refine ⟨['0'], fds, eds, ?_, by decide, hshape1, hshape2, ?_⟩
        · simp [← hr1, ← hr2, List.append_assoc]
        · rw [if_neg hcond]
          simpa using hv.symm
    · rw [Bool.not_eq_true] at hc0
      by_cases h19 : isDigit19 c = true
      · rcases hsf : scanFrac (List.dropWhile isDigitC r) with ⟨fds, r2⟩
        rcases hse : scanExp r2 with ⟨eds, r3⟩
        obtain ⟨hr1, hshape1⟩ := scanFrac_shape _ fds r2 hsf
        obtain ⟨hr2, hshape2⟩ := scanExp_shape r2 eds r3 hse
        simp only [parseNumCore, hc0, Bool.false_eq_true, if_false, h19, if_true,
          List.span_eq_take_drop, hsf, hse] at h
        have hintShape : intShape (c :: List.takeWhile isDigitC r) = true := by
          simp [intShape, h19, takeWhile_all]
        have hdecomp : c :: r =
            (c :: List.takeWhile isDigitC r) ++ fds ++ eds ++ r3 := by
          simp only [List.cons_append, List.append_assoc, List.cons.injEq, true_and]
          rw [hr2, hr1, List.takeWhile_append_dropWhile]
        split at h
        · rename_i hcond
          simp only [Option.some.injEq, Prod.mk.injEq] at h
          obtain ⟨hv, hr3⟩ := h
          subst hr3
          refine ⟨c :: List.takeWhile isDigitC r, fds, eds, hdecomp, hintShape,
            hshape1, hshape2, ?_⟩
          rw [if_pos hcond]
          exact hv.symm
        · rename_i hcond
          simp only [Option.some.injEq, Prod.mk.injEq] at h
          obtain ⟨hv, hr3⟩ := h
          subst hr3
          refine ⟨c :: List.takeWhile isDigitC r, fds, eds, hdecomp, hintShape,
            hshape1, hshape2, ?_⟩
          rw [if_neg hcond]
          simpa using hv.symm
      · rw [Bool.not_eq_true] at h19
        simp [parseNumCore, hc0, h19] at h

/-- What a successful number scan looks like, sign included. -/
theorem parseNum_shape (cs : List Char) (v : JsonVal) (rest : List Char)
    (h : parseNum cs = some (v, rest)) :
    ∃ (neg : Bool) (intDs fracDs expDs : List Char),
      cs = (if neg then ['-'] else []) ++ intDs ++ fracDs ++ expDs ++ rest ∧
      intShape intDs = true ∧ fracShape fracDs = true ∧ expShape expDs = true ∧
      v = (if fracDs.isEmpty && expDs.isEmpty then
            .num (if neg then -(digitsVal intDs : Int) else (digitsVal intDs : Int))
          else
            .fnum (String.mk ((if neg then ['-'] else []) ++ intDs ++ fracDs ++ expDs))) := by
  cases cs with
  | nil => simp [parseNum, parseNumCore] at h
  | cons c r =>
    by_cases hcm : (c == '-') = true
    · rw [beq_iff_eq] at hcm
      subst hcm
      simp only [parseNum, beq_self_eq_true, if_true] at h
      obtain ⟨i, f, e, hdec, h1, h2, h3, hv⟩ := parseNumCore_shape true r v rest h
      exact ⟨true, i, f, e, by simp [hdec], h1, h2, h3, hv⟩
    · rw [Bool.not_eq_true] at hcm
      simp only [parseNum, hcm, Bool.false_eq_true, if_false] at h
      obtain ⟨i, f, e, hdec, h1, h2, h3, hv⟩ := parseNumCore_shape false (c :: r) v rest h
      exact ⟨false, i, f, e, by simp [hdec], h1, h2, h3, hv⟩

/-- A digit heads none of the JSON structural tokens. -/
theorem digit_not_struct (c : Char) (h : isDigitC c = true) :
    ((c == '\x7b') = false) ∧ ((c == '[') = false) ∧ ((c == '"') = false) := by
  refine ⟨?_, ?_, ?_⟩ <;> (rw [beq_eq_false_iff_ne]; rintro rfl; exact absurd h (by decide))

/-- A float lexeme the scanner produced re-scans to itself. -/
theorem parseNum_fnum_ok (cs : List Char) (lex : String) (rest : List Char)
    (h : parseNum cs = some (.fnum lex, rest)) : fnumLexOk lex = true := by
  obtain ⟨neg, i, f, e, hdec, h1, h2, h3, hv⟩ := parseNum_shape cs _ rest h
  split at hv
  · cases hv
  · have hlex : lex = String.mk ((if neg then ['-'] else []) ++ i ++ f ++ e) := by
      cases hv
      rfl
    rename_i hcond
    have hbuild := parseNum_build neg i f e [] h1 h2 h3 rfl
    rw [if_neg hcond] at hbuild
    unfold fnumLexOk
    rw [hlex]
    have hdata : (String.mk ((if neg then ['-'] else []) ++ i ++ f ++ e)).data =
        (if neg then ['-'] else []) ++ i ++ f ++ e ++ [] := by simp
    rw [hdata, hbuild]
    simp

/-- A coherent float lexeme scans to itself before any safe rest. -/
theorem parseNum_fnum_rt (lex : String) (rest : List Char)
    (hok : fnumLexOk lex = true) (hrest : restSafe rest = true) :
    parseNum (lex.data ++ rest) = some (.fnum lex, rest) := by
  unfold fnumLexOk at hok
  split at hok
  · rename_i l r hp
    simp only [Bool.and_eq_true, List.isEmpty_iff, beq_iff_eq] at hok
    obtain ⟨hr, hl⟩ := hok
    subst hr
    obtain ⟨neg, i, f, e, hdec, h1, h2, h3, hv⟩ := parseNum_shape _ _ _ hp
    split at hv
    · cases hv
    · rename_i hcond
      have hlval : l = String.mk ((if neg then ['-'] else []) ++ i ++ f ++ e) := by
        cases hv
        rfl
      have hbuild := parseNum_build neg i f e rest h1 h2 h3 hrest
      rw [if_neg hcond] at hbuild
      have hgoal : lex.data ++ rest =
          (if neg then ['-'] else []) ++ i ++ f ++ e ++ rest := by
        rw [hdec]
        simp [List.append_assoc]
      rw [hgoal, hbuild, ← hlval, hl]
  · cases hok

/-- `natChars` is a well-shaped integer part. -/
theorem intShape_natChars (m : Nat) : intShape (natChars m) = true := by
  cases Nat.eq_zero_or_pos m with
  | inl h =>
    subst h
    decide
  | inr h =>
    obtain ⟨c, t, hct, hc, ht⟩ := natChars_head_pos m h
    rw [hct]
    simp [intShape, hc, ht]

/-- The number scanner reads back a serialized integer. -/
theorem parseNum_intChars (n : Int) (rest : List Char) (hrest : restSafe rest = true) :
    parseNum (intChars n ++ rest) = some (.num n, rest) := by
  by_cases hn : n < 0
  · have hb := parseNum_build true (natChars n.natAbs) [] [] rest
      (intShape_natChars n.natAbs) rfl rfl hrest
    simp only [List.isEmpty_nil, Bool.and_self, if_true, List.append_nil,
      Bool.false_eq_true, if_false, List.nil_append] at hb
    rw [show intChars n ++ rest = ['-'] ++ natChars n.natAbs ++ rest by
      simp [intChars, hn]]
    rw [hb, digitsVal_natChars]
    have hna : -((n.natAbs : Nat) : Int) = n := by omega
    rw [hna]
  · have hb := parseNum_build false (natChars n.natAbs) [] [] rest
      (intShape_natChars n.natAbs) rfl rfl hrest
    simp only [List.isEmpty_nil, Bool.and_self, if_true, List.append_nil,
      Bool.false_eq_true, if_false, List.nil_append] at hb
    rw [show intChars n ++ rest = natChars n.natAbs ++ rest by
      simp [intChars, hn]]
    rw [hb, digitsVal_natChars]
    have hna : ((n.natAbs : Nat) : Int) = n := by omega
    rw [hna]

/-- Character equality follows from code-point equality. -/
theorem char_eq_of_toNat (c d : Char) (h : c.toNat = d.toNat) : c = d :=
  Char.ext (UInt32.ext h)

/-- A decimal digit is one of the ten digit characters. -/
theorem digit_enum (c : Char) (h : isDigitC c = true) :
    c = '0' ∨ c = '1' ∨ c = '2' ∨ c = '3' ∨ c = '4' ∨ c = '5' ∨ c = '6' ∨
    c = '7' ∨ c = '8' ∨ c = '9' := by
  simp only [isDigitC, Bool.and_eq_true, decide_eq_true_eq] at h
  obtain ⟨h1, h2⟩ := h
  have hlo : 48 ≤ c.toNat := h1
  have hhi : c.toNat ≤ 57 := h2
  have h48 : c.toNat = 48 ∨ c.toNat = 49 ∨ c.toNat = 50 ∨ c.toNat = 51 ∨
      c.toNat = 52 ∨ c.toNat = 53 ∨ c.toNat = 54 ∨ c.toNat = 55 ∨
      c.toNat = 56 ∨ c.toNat = 57 := by omega
  rcases h48 with h|h|h|h|h|h|h|h|h|h
  · exact Or.inl (char_eq_of_toNat c '0' (h.trans (by decide)))
  · exact Or.inr (Or.inl (char_eq_of_toNat c '1' (h.trans (by decide))))
  · exact Or.inr (Or.inr (Or.inl (char_eq_of_toNat c '2' (h.trans (by decide)))))
  · exact Or.inr (Or.inr (Or.inr (Or.inl (char_eq_of_toNat c '3' (h.trans (by decide))))))
  · exact Or.inr (Or.inr (Or.inr (Or.inr (Or.inl (char_eq_of_toNat c '4'
      (h.trans (by decide)))))))
  · exact Or.inr (Or.inr (Or.inr (Or.inr (Or.inr (Or.inl (char_eq_of_toNat c '5'
      (h.trans (by decide))))))))
  · exact Or.inr (Or.inr (Or.inr (Or.inr (Or.inr (Or.inr (Or.inl (char_eq_of_toNat c '6'
      (h.trans (by decide)))))))))
  · exact Or.inr (Or.inr (Or.inr (Or.inr (Or.inr (Or.inr (Or.inr (Or.inl
      (char_eq_of_toNat c '7' (h.trans (by decide))))))))))
  · exact Or.inr (Or.inr (Or.inr (Or.inr (Or.inr (Or.inr (Or.inr (Or.inr (Or.inl
      (char_eq_of_toNat c '8' (h.trans (by decide)))))))))))
  · exact Or.inr (Or.inr (Or.inr (Or.inr (Or.inr (Or.inr (Or.inr (Or.inr (Or.inr
      (char_eq_of_toNat c '9' (h.trans (by decide)))))))))))

/-- A digit-headed input sends the value parser to the number scanner. -/
theorem parseVal_step_digit (f : Nat) (c : Char) (t : List Char)
    (h : isDigitC c = true) : parseVal (f + 1) (c :: t) = parseNum (c :: t) := by
  rcases digit_enum c h with rfl|rfl|rfl|rfl|rfl|rfl|rfl|rfl|rfl|rfl
  all_goals rfl

/-- A minus-then-digit input likewise scans as a number (it is not
`-Infinity`). -/
theorem parseVal_step_minus (f : Nat) (d : Char) (t : List Char)
    (hd : isDigitC d = true) : parseVal (f + 1) ('-' :: d :: t) = parseNum ('-' :: d :: t) := by
  rcases digit_enum d hd with rfl|rfl|rfl|rfl|rfl|rfl|rfl|rfl|rfl|rfl
  all_goals rfl

/-! ## Round-trip machinery: string bodies -/

/-- A Lean `Char` is a Unicode scalar value: not a surrogate, below
`0x110000`. -/
theorem char_not_surrogate (c : Char) :
    (c.toNat < 0xd800 ∨ 0xe000 ≤ c.toNat) ∧ c.toNat < 0x110000 := by
  have h := c.valid
  unfold UInt32.isValidChar Nat.isValidChar at h
  have hv : c.toNat = c.val.toNat := rfl
  rcases h with h | ⟨h1, h2⟩
  · exact ⟨Or.inl (by omega), by omega⟩
  · exact ⟨Or.inr (by omega), by omega⟩

/-- `hex4Val` inverts `hex4Chars`. -/
theorem hex4Val_hex4Chars (n : Nat) (h : n < 0x10000) :
    hex4Val (hexDig (n / 4096 % 16)) (hexDig (n / 256 % 16))
      (hexDig (n / 16 % 16)) (hexDig (n % 16)) = some n := by
  have h1 := hexVal_hexDig (n / 4096 % 16) (by omega)
  have h2 := hexVal_hexDig (n / 256 % 16) (by omega)
  have h3 := hexVal_hexDig (n / 16 % 16) (by omega)
  have h4 := hexVal_hexDig (n % 16) (by omega)
  simp only [hex4Val, h1, h2, h3, h4, Option.bind_eq_bind, Option.some_bind, pure]
  congr 1
  omega

/-- One `\uXXXX` escape decodes to its BMP scalar. -/
theorem parseJStrBody_u (fuel : Nat) (n : Nat) (tl : List Char)
    (hlt : n < 0x10000) (hns : n < 0xd800 ∨ 0xe000 ≤ n) :
    parseJStrBody (fuel + 1) ('\\' :: 'u' :: hex4Chars n ++ tl) =
      (parseJStrBody fuel tl).map (fun p => (Char.ofNat n :: p.1, p.2)) := by
  have hs1 : (decide (0xd800 ≤ n) && decide (n ≤ 0xdbff)) = false := by
    rcases hns with h | h
    · simp only [Bool.and_eq_false_iff]
      exact Or.inl (by simp only [decide_eq_false_iff_not]; omega)
    · simp only [Bool.and_eq_false_iff]
      exact Or.inr (by simp only [decide_eq_false_iff_not]; omega)
  have hs2 : (decide (0xdc00 ≤ n) && decide (n ≤ 0xdfff)) = false := by
    rcases hns with h | h
    · simp only [Bool.and_eq_false_iff]
      exact Or.inl (by simp only [decide_eq_false_iff_not]; omega)
    · simp only [Bool.and_eq_false_iff]
      exact Or.inr (by simp only [decide_eq_false_iff_not]; omega)
  simp only [hex4Chars, List.cons_append]
  simp only [parseJStrBody]
  rw [hex4Val_hex4Chars n hlt]
  simp only [hs1, hs2, Bool.false_eq_true, if_false]
  rfl

/-- The low-surrogate decoder inverts the encoder's low-surrogate escape. -/
theorem lowSur_enc (n m : Nat) (tl : List Char) (hm : m < 0x10000)
    (h1 : 0xdc00 ≤ m) (h2 : m ≤ 0xdfff) :
    lowSur n ('\\' :: 'u' :: hex4Chars m ++ tl) =
      some (0x10000 + (n - 0xd800) * 0x400 + (m - 0xdc00), tl) := by
  have hs : (decide (0xdc00 ≤ m) && decide (m ≤ 0xdfff)) = true := by
    simp only [Bool.and_eq_true, decide_eq_true_eq]
    exact ⟨h1, h2⟩
  simp only [hex4Chars, List.cons_append, List.nil_append]
  simp only [lowSur]
  rw [hex4Val_hex4Chars m hm]
  simp only [hs, if_true]

/-- A surrogate-pair escape decodes to its astral scalar. -/
theorem parseJStrBody_u_pair (fuel : Nat) (n : Nat) (tl : List Char)
    (h1 : 0x10000 ≤ n) (h2 : n < 0x110000) :
    parseJStrBody (fuel + 1)
      ('\\' :: 'u' :: hex4Chars (0xd800 + (n - 0x10000) / 0x400) ++
        ('\\' :: 'u' :: hex4Chars (0xdc00 + (n - 0x10000) % 0x400)) ++ tl) =
      (parseJStrBody fuel tl).map (fun p => (Char.ofNat n :: p.1, p.2)) := by
  have hhi : 0xd800 + (n - 0x10000) / 0x400 < 0x10000 := by omega
  have hlo : 0xdc00 + (n - 0x10000) % 0x400 < 0x10000 := by omega
  have hshi : (decide (0xd800 ≤ 0xd800 + (n - 0x10000) / 0x400) &&
      decide (0xd800 + (n - 0x10000) / 0x400 ≤ 0xdbff)) = true := by
    simp only [Bool.and_eq_true, decide_eq_true_eq]
    omega
  have hls := lowSur_enc (0xd800 + (n - 0x10000) / 0x400)
    (0xdc00 + (n - 0x10000) % 0x400) tl hlo (by omega) (by omega)
  have ha := hex4Val_hex4Chars (0xd800 + (n - 0x10000) / 0x400) hhi
  have hcp : 0x10000 + (0xd800 + (n - 0x10000) / 0x400 - 0xd800) * 0x400 +
      (0xdc00 + (n - 0x10000) % 0x400 - 0xdc00) = n := by omega
  rw [hcp] at hls
  rw [List.append_assoc]
  simp only [List.cons_append] at hls ⊢
  generalize hHi : 0xd800 + (n - 0x10000) / 0x400 = hi at hshi ha hls ⊢
  generalize hLo : 0xdc00 + (n - 0x10000) % 0x400 = lo at hls ⊢
  generalize hR : ('\\' : Char) :: 'u' :: (hex4Chars lo ++ tl) = R at hls ⊢
  simp only [hex4Chars, List.cons_append, List.nil_append]
  rw [parseJStrBody]
  rw [ha]
  simp only [hshi, if_true]
  rw [hls]
  rfl

/-- One encoded character decodes back, consuming one unit of fuel. -/
theorem parseJStrBody_encChar (fuel : Nat) (c : Char) (tl : List Char) :
    parseJStrBody (fuel + 1) (encChar c ++ tl) =
      (parseJStrBody fuel tl).map (fun p => (c :: p.1, p.2)) := by
  by_cases h1 : c = '"'
  · subst h1
    rfl
  by_cases h2 : c = '\\'
  · subst h2
    rfl
  by_cases h3 : c = '\n'
  · subst h3
    rfl
  by_cases h4 : c = '\r'
  · subst h4
    rfl
  by_cases h5 : c = '\t'
  · subst h5
    rfl
  by_cases h6 : c = '\x08'
  · subst h6
    rfl
  by_cases h7 : c = '\x0c'
  · subst h7
    rfl
  have hb1 : (c == '"') = false := beq_eq_false_iff_ne.mpr h1
  have hb2 : (c == '\\') = false := beq_eq_false_iff_ne.mpr h2
  have hb3 : (c == '\n') = false := beq_eq_false_iff_ne.mpr h3
  have hb4 : (c == '\r') = false := beq_eq_false_iff_ne.mpr h4
  have hb5 : (c == '\t') = false := beq_eq_false_iff_ne.mpr h5
  have hb6 : (c == '\x08') = false := beq_eq_false_iff_ne.mpr h6
  have hb7 : (c == '\x0c') = false := beq_eq_false_iff_ne.mpr h7
  by_cases h8 : 0x20 ≤ c.toNat ∧ c.toNat ≤ 0x7e
  · have hpr : (decide (0x20 ≤ c.toNat) && decide (c.toNat ≤ 0x7e)) = true := by
      simp only [Bool.and_eq_true, decide_eq_true_eq]
      exact h8
    have he : encChar c = [c] := by
      simp only [encChar, hb1, hb2, hb3, hb4, hb5, hb6, hb7, Bool.false_eq_true,
        if_false, hpr, if_true]
    rw [he]
    simp only [List.cons_append, List.nil_append]
    simp only [parseJStrBody, hb1, hb2, Bool.false_eq_true, if_false]
    rw [if_neg (by omega : ¬(c.toNat < 0x20))]
  · have hpr : (decide (0x20 ≤ c.toNat) && decide (c.toNat ≤ 0x7e)) = false := by
      rcases Decidable.not_and_iff_or_not.mp h8 with h | h
      · simp only [Bool.and_eq_false_iff]
        exact Or.inl (by simp only [decide_eq_false_iff_not]; exact h)
      · simp only [Bool.and_eq_false_iff]
        exact Or.inr (by simp only [decide_eq_false_iff_not]; exact h)
    by_cases h9 : c.toNat < 0x10000
    · have he : encChar c = '\\' :: 'u' :: hex4Chars c.toNat := by
        simp only [encChar, hb1, hb2, hb3, hb4, hb5, hb6, hb7, Bool.false_eq_true,
          if_false, hpr]
        rw [if_pos h9]
      rw [he, parseJStrBody_u fuel c.toNat tl h9 (char_not_surrogate c).1,
        Char.ofNat_toNat]
    · have hns := char_not_surrogate c
      have he : encChar c = '\\' :: 'u' :: hex4Chars (0xd800 + (c.toNat - 0x10000) / 0x400) ++
          ('\\' :: 'u' :: hex4Chars (0xdc00 + (c.toNat - 0x10000) % 0x400)) := by
        simp only [encChar, hb1, hb2, hb3, hb4, hb5, hb6, hb7, Bool.false_eq_true,
          if_false, hpr]
        rw [if_neg h9]
      rw [he, parseJStrBody_u_pair fuel c.toNat tl (by omega) hns.2, Char.ofNat_toNat]

/-- An escaped body followed by the closing quote decodes to the original
body, given fuel beyond the body's length. -/
theorem parseJStrBody_encChars (ds : List Char) : ∀ (fuel : Nat) (rest : List Char),
    ds.length < fuel →
    parseJStrBody fuel (encChars ds ++ '"' :: rest) = some (ds, rest) := by
  induction ds with
  | nil =>
    intro fuel rest h
    cases fuel with
    | zero => omega
    | succ f => rfl
  | cons c t ih =>
    intro fuel rest h
    cases fuel with
    | zero => omega
    | succ f =>
      have hsplit : encChars (c :: t) ++ '"' :: rest =
          encChar c ++ (encChars t ++ '"' :: rest) := by
        simp [encChars, List.append_assoc]
      rw [hsplit, parseJStrBody_encChar f c _,
        ih f rest (by simp only [List.length_cons] at h; omega)]
      rfl

/-! ## Round-trip machinery: encoder heads, lengths, dispatch -/

/-- A decimal digit is not JSON whitespace. -/
theorem digit_not_ws (c : Char) (h : isDigitC c = true) : isJsonWs c = false := by
  rcases digit_enum c h with rfl|rfl|rfl|rfl|rfl|rfl|rfl|rfl|rfl|rfl
  all_goals rfl

/-- `skipWs` leaves a list alone when its head is not whitespace. -/
theorem skipWs_not_ws (c : Char) (t : List Char) (h : isJsonWs c = false) :
    skipWs (c :: t) = c :: t := by
  simp [skipWs, List.dropWhile_cons, h]

/-- `skipWs` eats a leading space. -/
theorem skipWs_space (t : List Char) : skipWs (' ' :: t) = skipWs t := by
  simp [skipWs, List.dropWhile_cons, show isJsonWs ' ' = true from rfl]

/-- A coherent float lexeme starts with a digit, or with a minus sign
followed by a digit. -/
theorem fnumLexOk_head (lex : String) (hok : fnumLexOk lex = true) :
    (∃ c t, lex.data = c :: t ∧ isDigitC c = true) ∨
    (∃ d t, lex.data = '-' :: d :: t ∧ isDigitC d = true) := by
  unfold fnumLexOk at hok
  split at hok
  · rename_i l r hp
    simp only [Bool.and_eq_true, List.isEmpty_iff, beq_iff_eq] at hok
    obtain ⟨hr, hl⟩ := hok
    subst hr
    obtain ⟨neg, i, f, e, hdec, h1, h2, h3, hv⟩ := parseNum_shape _ _ _ hp
    cases i with
    | nil => simp [intShape] at h1
    | cons c t' =>
      have hc : isDigitC c = true := by
        simp only [intShape, Bool.or_eq_true, Bool.and_eq_true, beq_iff_eq] at h1
        rcases h1 with ⟨hc0, _⟩ | ⟨h19, _⟩
        · subst hc0
          decide
        · exact isDigit19_isDigitC c h19
      cases neg with
      | false =>
        refine Or.inl ⟨c, t' ++ f ++ e, ?_, hc⟩
        simpa [List.append_assoc] using hdec
      | true =>
        refine Or.inr ⟨c, t' ++ f ++ e, ?_, hc⟩
        simpa [List.append_assoc] using hdec
  · cases hok

/-- The first character of an encoding: never whitespace, never a closing
bracket. -/
theorem encVal_head (v : JsonVal) (hwf : wfVal v = true) :
    ∃ c t, encVal v = c :: t ∧ isJsonWs c = false ∧ (c == ']') = false := by
  cases v with
  | null => exact ⟨'n', _, rfl, rfl, rfl⟩
  | bool b =>
    cases b with
    | false => exact ⟨'f', _, rfl, rfl, rfl⟩
    | true => exact ⟨'t', _, rfl, rfl, rfl⟩
  | num n =>
    show ∃ c t, intChars n = c :: t ∧ _
    unfold intChars
    by_cases hn : n < 0
    · rw [if_pos hn]
      exact ⟨'-', _, rfl, rfl, rfl⟩
    · rw [if_neg hn]
      rcases Nat.eq_zero_or_pos n.natAbs with h0 | hpos
      · rw [h0, natChars_zero]
        exact ⟨'0', _, rfl, rfl, rfl⟩
      · obtain ⟨c, t, hct, hc, _⟩ := natChars_head_pos _ hpos
        have hd := isDigit19_isDigitC c hc
        refine ⟨c, t, hct, digit_not_ws c hd, ?_⟩
        rw [beq_eq_false_iff_ne]
        rintro rfl
        exact absurd hd (by decide)
  | fnum lex =>
    have hw := hwf
    simp only [wfVal, Bool.or_eq_true, beq_iff_eq] at hw
    rcases hw with ((h | h) | h) | h
    · subst h
      exact ⟨'N', _, rfl, rfl, rfl⟩
    · subst h
      exact ⟨'I', _, rfl, rfl, rfl⟩
    · subst h
      exact ⟨'-', _, rfl, rfl, rfl⟩
    · rcases fnumLexOk_head lex h with ⟨c, t, hct, hc⟩ | ⟨d, t, hct, _⟩
      · refine ⟨c, t, hct, digit_not_ws c hc, ?_⟩
        rw [beq_eq_false_iff_ne]
        rintro rfl
        exact absurd hc (by decide)
      · exact ⟨'-', d :: t, hct, rfl, rfl⟩
  | str s => exact ⟨'"', _, rfl, rfl, rfl⟩
  | arr l =>
    cases l with
    | nil => exact ⟨'[', _, rfl, rfl, rfl⟩
    | cons v t => exact ⟨'[', _, rfl, rfl, rfl⟩
  | obj m =>
    cases m with
    | nil => exact ⟨'\x7b', _, rfl, rfl, rfl⟩
    | cons p t =>
      obtain ⟨k, v⟩ := p
      exact ⟨'\x7b', _, rfl, rfl, rfl⟩

/-- `skipWs` leaves an encoding (with anything after it) alone. -/
theorem skipWs_encVal (v : JsonVal) (hwf : wfVal v = true) (rest : List Char) :
    skipWs (encVal v ++ rest) = encVal v ++ rest := by
  obtain ⟨c, t, hct, hws, _⟩ := encVal_head v hwf
  rw [hct, List.cons_append]
  exact skipWs_not_ws c _ hws

/-- The value parser sends a coherent float lexeme to the number scanner. -/
theorem parseVal_fnumLex (f : Nat) (lex : String) (rest : List Char)
    (hok : fnumLexOk lex = true) (hrest : restSafe rest = true) :
    parseVal (f + 1) (lex.data ++ rest) = some (.fnum lex, rest) := by
  rcases fnumLexOk_head lex hok with ⟨c, t, hd, hc⟩ | ⟨d, t, hd, hdig⟩
  · rw [hd, List.cons_append, parseVal_step_digit f c _ hc, ← List.cons_append, ← hd]
    exact parseNum_fnum_rt lex rest hok hrest
  · rw [hd]
    simp only [List.cons_append]
    rw [parseVal_step_minus f d _ hdig, ← List.cons_append, ← List.cons_append, ← hd]
    exact parseNum_fnum_rt lex rest hok hrest

/-- The value parser reads back a serialized integer. -/
theorem parseVal_intChars (f : Nat) (n : Int) (rest : List Char)
    (hrest : restSafe rest = true) :
    parseVal (f + 1) (intChars n ++ rest) = some (.num n, rest) := by
  have hnum := parseNum_intChars n rest hrest
  unfold intChars at hnum ⊢
  by_cases hn : n < 0
  · rw [if_pos hn] at hnum ⊢
    have hpos : 1 ≤ n.natAbs := by omega
    obtain ⟨c, t, hct, hc, ht⟩ := natChars_head_pos _ hpos
    rw [hct] at hnum ⊢
    simp only [List.cons_append] at hnum ⊢
    rw [parseVal_step_minus f c _ (isDigit19_isDigitC c hc)]
    exact hnum
  · rw [if_neg hn] at hnum ⊢
    rcases Nat.eq_zero_or_pos n.natAbs with h0 | hpos
    · rw [h0, natChars_zero] at hnum ⊢
      simp only [List.cons_append, List.nil_append] at hnum ⊢
      rw [parseVal_step_digit f '0' rest (by decide)]
      exact hnum
    · obtain ⟨c, t, hct, hc, ht⟩ := natChars_head_pos _ hpos
      rw [hct] at hnum ⊢
      simp only [List.cons_append] at hnum ⊢
      rw [parseVal_step_digit f c _ (isDigit19_isDigitC c hc)]
      exact hnum

/-- `natChars` is never empty. -/
theorem natChars_len (n : Nat) : 1 ≤ (natChars n).length := by
  rcases Nat.eq_zero_or_pos n with h0 | hpos
  · subst h0
    decide
  · obtain ⟨c, t, hct, _, _⟩ := natChars_head_pos n hpos
    rw [hct]
    simp

/-- Escaping a body never shortens it. -/
theorem encChars_length_ge (ds : List Char) : ds.length ≤ (encChars ds).length := by
  induction ds with
  | nil => simp [encChars]
  | cons c t ih =>
    have hc : 1 ≤ (encChar c).length := by
      unfold encChar
      repeat' split
      all_goals simp [hex4Chars]
    simp only [encChars, List.length_append, List.length_cons]
    omega

/-- A well-formed value's encoding is nonempty. -/
theorem encVal_length_pos (v : JsonVal) (hwf : wfVal v = true) :
    1 ≤ (encVal v).length := by
  obtain ⟨c, t, hct, _, _⟩ := encVal_head v hwf
  rw [hct]
  simp

/-- Inserting a fresh key appends. -/
theorem insertKey_fresh (acc : List (String × JsonVal)) (k : String) (v : JsonVal)
    (h : acc.all (fun p => p.1 != k) = true) :
    insertKey acc k v = acc ++ [(k, v)] := by
  induction acc with
  | nil => rfl
  | cons p t ih =>
    obtain ⟨k0, v0⟩ := p
    simp only [List.all_cons, Bool.and_eq_true] at h
    have hne : (k0 == k) = false := by
      have h1 := h.1
      simp only [bne_iff_ne, ne_eq] at h1
      exact beq_eq_false_iff_ne.mpr h1
    unfold insertKey
    rw [hne]
    simp only [Bool.false_eq_true, if_false, List.cons_append]
    rw [ih h.2]

/-- Freshness of a batch of keys extends over an insertion of another fresh
key. -/
theorem all_keys_append (t acc : List (String × JsonVal)) (k : String) (v : JsonVal)
    (h1 : t.all (fun p => acc.all (fun q => q.1 != p.1)) = true)
    (h2 : t.all (fun p => p.1 != k) = true) :
    t.all (fun p => (acc ++ [(k, v)]).all (fun q => q.1 != p.1)) = true := by
  rw [List.all_eq_true] at h1 h2 ⊢
  intro p hp
  rw [List.all_append]
  simp only [Bool.and_eq_true]
  refine ⟨h1 p hp, ?_⟩
  simp only [List.all_cons, List.all_nil, Bool.and_true]
  have h3 := h2 p hp
  simp only [bne_iff_ne, ne_eq] at h3 ⊢
  exact fun hh => h3 hh.symm

/-- Unfolding of `parseItems` once the head value is scanned. -/
theorem parseItems_step (f : Nat) (cs : List Char) (acc : List JsonVal)
    (v : JsonVal) (r : List Char) (hv : parseVal f cs = some (v, r)) :
    parseItems (f + 1) cs acc =
      match skipWs r with
      | ',' :: r2 => parseItems f (skipWs r2) (acc ++ [v])
      | ']' :: r2 => some (acc ++ [v], r2)
      | _ => none := by
  rw [parseItems, hv]

/-- Unfolding of `parseMembers` once the key string is scanned. -/
theorem parseMembers_step (f : Nat) (r : List Char) (acc : List (String × JsonVal))
    (key : List Char) (r1 : List Char) (hk : parseJStrBody f r = some (key, r1)) :
    parseMembers (f + 1) ('"' :: r) acc =
      match skipWs r1 with
      | ':' :: r2 =>
          match parseVal f (skipWs r2) with
          | none => none
          | some (v, r3) =>
              match skipWs r3 with
              | ',' :: r4 => parseMembers f (skipWs r4) (insertKey acc (String.mk key) v)
              | '}' :: r4 => some (insertKey acc (String.mk key) v, r4)
              | _ => none
      | _ => none := by
  rw [parseMembers, hk]
  rfl

/-- A `[` followed by a non-whitespace, non-`]` character dispatches to
`parseItems`. -/
theorem parseVal_step_bracket (f : Nat) (c : Char) (t : List Char)
    (hws : isJsonWs c = false) (hbr : (c == ']') = false) :
    parseVal (f + 1) ('[' :: c :: t) =
      (parseItems f (c :: t) []).map (fun p => (JsonVal.arr p.1, p.2)) := by
  rw [parseVal, skipWs_not_ws c t hws]
  simp only [show (('[' : Char) == '\x7b') = false from rfl,
    show (('[' : Char) == '[') = true from rfl, Bool.false_eq_true, if_false, if_true]
  split
  · rename_i r2 heq
    exfalso
    injection heq with hc1 _
    rw [hc1] at hbr
    simp at hbr
  · rfl

mutual
/-- A well-formed value's encoding parses back, leaving exactly the given
safe rest, under fuel above the encoding's length. -/
theorem rtVal (v : JsonVal) (fuel : Nat) (rest : List Char)
    (hwf : wfVal v = true) (hrest : restSafe rest = true)
    (hfuel : (encVal v).length < fuel) :
    parseVal fuel (encVal v ++ rest) = some (v, rest) := by
  cases fuel with
  | zero => exact absurd hfuel (by omega)
  | succ f =>
    cases v with
    | null => rfl
    | bool b =>
      cases b with
      | false => rfl
      | true => rfl
    | num n => exact parseVal_intChars f n rest hrest
    | fnum lex =>
      have hw := hwf
      simp only [wfVal, Bool.or_eq_true, beq_iff_eq] at hw
      rcases hw with ((h | h) | h) | h
      · subst h
        rfl
      · subst h
        rfl
      · subst h
        rfl
      · exact parseVal_fnumLex f lex rest h hrest
    | str s =>
      have hlen : s.data.length < f := by
        have h1 := encChars_length_ge s.data
        simp only [encVal, encStr, List.length_cons, List.length_append] at hfuel
        omega
      have hX : encVal (.str s) ++ rest = '"' :: (encChars s.data ++ '"' :: rest) := by
        simp [encVal, encStr, List.append_assoc]
      rw [hX]
      have hstep : parseVal (f + 1) ('"' :: (encChars s.data ++ '"' :: rest)) =
          (parseJStrBody f (encChars s.data ++ '"' :: rest)).map
            (fun p => (JsonVal.str (String.mk p.1), p.2)) := rfl
      rw [hstep, parseJStrBody_encChars s.data f rest hlen]
      simp [strMk_data]
    | arr l =>
      cases l with
      | nil => rfl
      | cons w t =>
        have hwf2 : wfItems (w :: t) = true := by
          simpa [wfVal] using hwf
        have hwfw : wfVal w = true := by
          simp only [wfItems, Bool.and_eq_true] at hwf2
          exact hwf2.1
        obtain ⟨c, ct, hct, hws, hbr⟩ := encVal_head w hwfw
        have hX : encVal (.arr (w :: t)) ++ rest =
            '[' :: (encItems1 (w :: t) ++ ']' :: rest) := by
          simp [encVal, encItems1, List.append_assoc]
        have hXc : encItems1 (w :: t) ++ ']' :: rest =
            c :: (ct ++ encItemsRest t ++ ']' :: rest) := by
          simp [encItems1, hct, List.append_assoc]
        rw [hX, hXc, parseVal_step_bracket f c _ hws hbr, ← hXc]
        have hlen : (encVal (JsonVal.arr (w :: t))).length =
            (encItems1 (w :: t)).length + 2 := by
          simp only [encVal, encItems1, List.length_cons, List.length_append,
            List.length_nil]
        have hfm : (encItems1 (w :: t)).length + 1 < f := by
          rw [hlen] at hfuel
          omega
        rw [rtItems (w :: t) f [] rest (by simp) hwf2 hfm]
        simp
    | obj m =>
      cases m with
      | nil => rfl
      | cons p t =>
        obtain ⟨k, w⟩ := p
        have hwf2 := hwf
        simp only [wfVal, Bool.and_eq_true] at hwf2
        have hX : encVal (.obj ((k, w) :: t)) ++ rest =
            '\x7b' :: (encMembers1 ((k, w) :: t) ++ '}' :: rest) := by
          simp [encVal, encMembers1, List.append_assoc]
        have hX2 : encMembers1 ((k, w) :: t) ++ '}' :: rest =
            '"' :: (encChars k.data ++ '"' ::
              (':' :: ' ' :: (encVal w ++ (encMembersRest t ++ '}' :: rest)))) := by
          simp [encMembers1, encStr, List.append_assoc]
        rw [hX, hX2]
        have hstep : parseVal (f + 1) ('\x7b' :: '"' ::
            (encChars k.data ++ '"' ::
              (':' :: ' ' :: (encVal w ++ (encMembersRest t ++ '}' :: rest))))) =
            (parseMembers f ('"' :: (encChars k.data ++ '"' ::
              (':' :: ' ' :: (encVal w ++ (encMembersRest t ++ '}' :: rest))))) []).map
              (fun p => (JsonVal.obj p.1, p.2)) := rfl
        rw [hstep, ← hX2]
        have hlen : (encVal (JsonVal.obj ((k, w) :: t))).length =
            (encMembers1 ((k, w) :: t)).length + 2 := by
          simp only [encVal, encMembers1, encStr, List.length_cons,
            List.length_append, List.length_nil]
        have hfm : (encMembers1 ((k, w) :: t)).length + 1 < f := by
          rw [hlen] at hfuel
          omega
        rw [rtMembers ((k, w) :: t) f [] rest (by simp) hwf2.2 hwf2.1 (by simp) hfm]
        simp
termination_by fuel

/-- A non-empty well-formed item list's encoding parses back through
`parseItems`, appending to the accumulator. -/
theorem rtItems (l : List JsonVal) (fuel : Nat) (acc : List JsonVal) (rest : List Char)
    (hne : l ≠ []) (hwf : wfItems l = true)
    (hfuel : (encItems1 l).length + 1 < fuel) :
    parseItems fuel (encItems1 l ++ ']' :: rest) acc = some (acc ++ l, rest) := by
  cases l with
  | nil => exact absurd rfl hne
  | cons v t =>
    cases fuel with
    | zero => exact absurd hfuel (by omega)
    | succ f =>
      have hwfv : wfVal v = true := by
        simp only [wfItems, Bool.and_eq_true] at hwf
        exact hwf.1
      have hwft : wfItems t = true := by
        simp only [wfItems, Bool.and_eq_true] at hwf
        exact hwf.2
      have hsplit : encItems1 (v :: t) ++ ']' :: rest =
          encVal v ++ (encItemsRest t ++ ']' :: rest) := by
        simp [encItems1, List.append_assoc]
      have hrs : restSafe (encItemsRest t ++ ']' :: rest) = true := by
        cases t with
        | nil => rfl
        | cons w t2 => rfl
      have hlenv : (encVal v).length < f := by
        have h1 : (encItems1 (v :: t)).length =
            (encVal v).length + (encItemsRest t).length := by
          simp [encItems1]
        omega
      have hv := rtVal v f (encItemsRest t ++ ']' :: rest) hwfv hrs hlenv
      rw [hsplit, parseItems_step f _ acc v _ hv]
      cases t with
      | nil => rfl
      | cons w t2 =>
        have hwfw : wfVal w = true := by
          simp only [wfItems, Bool.and_eq_true] at hwft
          exact hwft.1
        have hr2 : encItemsRest (w :: t2) ++ ']' :: rest =
            ',' :: ' ' :: (encItems1 (w :: t2) ++ ']' :: rest) := by
          simp [encItemsRest, encItems1, List.append_assoc]
        rw [hr2]
        show parseItems f (skipWs (' ' :: (encItems1 (w :: t2) ++ ']' :: rest)))
            (acc ++ [v]) = some (acc ++ (v :: w :: t2), rest)
        have hskip : skipWs (' ' :: (encItems1 (w :: t2) ++ ']' :: rest)) =
            encItems1 (w :: t2) ++ ']' :: rest := by
          rw [skipWs_space]
          have hassoc : encItems1 (w :: t2) ++ ']' :: rest =
              encVal w ++ (encItemsRest t2 ++ ']' :: rest) := by
            simp [encItems1, List.append_assoc]
          rw [hassoc, skipWs_encVal w hwfw]
        rw [hskip]
        have hfuel2 : (encItems1 (w :: t2)).length + 1 < f := by
          have hA : (encItems1 (v :: w :: t2)).length =
              (encVal v).length + 2 + (encItems1 (w :: t2)).length := by
            simp only [encItems1, encItemsRest, List.length_append, List.length_cons]
            omega
          omega
        rw [rtItems (w :: t2) f (acc ++ [v]) rest (by simp) hwft hfuel2]
        simp
termination_by fuel

/-- A non-empty well-formed member list's encoding parses back through
`parseMembers`, appending to an accumulator with disjoint keys. -/
theorem rtMembers (m : List (String × JsonVal)) (fuel : Nat)
    (acc : List (String × JsonVal)) (rest : List Char)
    (hne : m ≠ []) (hwf : wfMembers m = true) (hnodup : keysNodupB m = true)
    (hfresh : m.all (fun p => acc.all (fun q => q.1 != p.1)) = true)
    (hfuel : (encMembers1 m).length + 1 < fuel) :
    parseMembers fuel (encMembers1 m ++ '}' :: rest) acc = some (acc ++ m, rest) := by
  cases m with
  | nil => exact absurd rfl hne
  | cons p t =>
    obtain ⟨k, v⟩ := p
    cases fuel with
    | zero => exact absurd hfuel (by omega)
    | succ f =>
      have hwfv : wfVal v = true := by
        simp only [wfMembers, Bool.and_eq_true] at hwf
        exact hwf.1
      have hwft : wfMembers t = true := by
        simp only [wfMembers, Bool.and_eq_true] at hwf
        exact hwf.2
      have hnd1 : t.all (fun p => p.1 != k) = true := by
        simp only [keysNodupB, Bool.and_eq_true] at hnodup
        exact hnodup.1
      have hndt : keysNodupB t = true := by
        simp only [keysNodupB, Bool.and_eq_true] at hnodup
        exact hnodup.2
      have hfr1 : acc.all (fun q => q.1 != k) = true := by
        simp only [List.all_cons, Bool.and_eq_true] at hfresh
        exact hfresh.1
      have hfrt : t.all (fun p => acc.all (fun q => q.1 != p.1)) = true := by
        simp only [List.all_cons, Bool.and_eq_true] at hfresh
        exact hfresh.2
      have hsplit : encMembers1 ((k, v) :: t) ++ '}' :: rest =
          '"' :: (encChars k.data ++ '"' ::
            (':' :: ' ' :: (encVal v ++ (encMembersRest t ++ '}' :: rest)))) := by
        simp [encMembers1, encStr, List.append_assoc]
      have hlens : (encMembers1 ((k, v) :: t)).length =
          (encChars k.data).length + 4 + (encVal v).length +
            (encMembersRest t).length := by
        simp only [encMembers1, encStr, List.length_append, List.length_cons,
          List.length_nil]
        omega
      have hlk : k.data.length < f := by
        have h1 := encChars_length_ge k.data
        omega
      have hlv : (encVal v).length < f := by
        omega
      have hk := parseJStrBody_encChars k.data f
        (':' :: ' ' :: (encVal v ++ (encMembersRest t ++ '}' :: rest))) hlk
      rw [hsplit, parseMembers_step f _ acc k.data _ hk]
      have hrs : restSafe (encMembersRest t ++ '}' :: rest) = true := by
        cases t with
        | nil => rfl
        | cons q t2 => rfl
      have hskipv : skipWs (' ' :: (encVal v ++ (encMembersRest t ++ '}' :: rest))) =
          encVal v ++ (encMembersRest t ++ '}' :: rest) := by
        rw [skipWs_space, skipWs_encVal v hwfv]
      show (match parseVal f (skipWs (' ' :: (encVal v ++
          (encMembersRest t ++ '}' :: rest)))) with
        | none => none
        | some (v2, r3) =>
            match skipWs r3 with
            | ',' :: r4 => parseMembers f (skipWs r4) (insertKey acc (String.mk k.data) v2)
            | '}' :: r4 => some (insertKey acc (String.mk k.data) v2, r4)
            | _ => none) = some (acc ++ ((k, v) :: t), rest)
      rw [hskipv, rtVal v f _ hwfv hrs hlv]
      cases t with
      | nil =>
        show some (insertKey acc (String.mk k.data) v, rest) =
            some (acc ++ ((k, v) :: []), rest)
        rw [strMk_data, insertKey_fresh acc k v hfr1]
      | cons q t2 =>
        obtain ⟨k2, v2⟩ := q
        have hr4 : encMembersRest ((k2, v2) :: t2) ++ '}' :: rest =
            ',' :: ' ' :: (encMembers1 ((k2, v2) :: t2) ++ '}' :: rest) := by
          simp [encMembersRest, encMembers1, List.append_assoc]
        rw [hr4]
        show parseMembers f (skipWs (' ' :: (encMembers1 ((k2, v2) :: t2) ++ '}' :: rest)))
            (insertKey acc (String.mk k.data) v) =
            some (acc ++ ((k, v) :: (k2, v2) :: t2), rest)
        have hskip2 : skipWs (' ' :: (encMembers1 ((k2, v2) :: t2) ++ '}' :: rest)) =
            encMembers1 ((k2, v2) :: t2) ++ '}' :: rest := by
          rw [skipWs_space]
          have hq : encMembers1 ((k2, v2) :: t2) ++ '}' :: rest =
              '"' :: (encChars k2.data ++ '"' ::
                (':' :: ' ' :: (encVal v2 ++ (encMembersRest t2 ++ '}' :: rest)))) := by
            simp [encMembers1, encStr, List.append_assoc]
          rw [hq]
          exact skipWs_not_ws '"' _ rfl
        rw [hskip2, strMk_data, insertKey_fresh acc k v hfr1]
        have hfuel2 : (encMembers1 ((k2, v2) :: t2)).length + 1 < f := by
          have hB : (encMembersRest ((k2, v2) :: t2)).length =
              (encMembers1 ((k2, v2) :: t2)).length + 2 := by
            simp only [encMembers1, encMembersRest, List.length_append,
              List.length_cons]
            omega
          omega
        rw [rtMembers ((k2, v2) :: t2) f (acc ++ [(k, v)]) rest (by simp) hwft hndt
          (all_keys_append ((k2, v2) :: t2) acc k v hfrt hnd1) hfuel2]
        simp
termination_by fuel
end

/-- `json.loads` inverts `json.dumps` on well-formed values. -/
theorem loads_dumps (v : JsonVal) (hwf : wfVal v = true) :
    pyJsonLoads (pyJsonDumps v) = some v := by
  unfold pyJsonLoads pyJsonDumps
  have hdata : (String.mk (encVal v)).data = encVal v := rfl
  rw [hdata]
  have hskip : skipWs (encVal v) = encVal v := by
    have h1 := skipWs_encVal v hwf []
    simpa using h1
  rw [hskip]
  have hrt := rtVal v ((encVal v).length + 1) [] hwf rfl (by omega)
  rw [List.append_nil] at hrt
  rw [hrt]
  rfl

/-! ## Round-trip machinery: parser outputs are well-formed -/

/-- Values out of the atom dispatcher are well-formed. -/
theorem parseAtom_wf (cs : List Char) (v : JsonVal) (rest : List Char)
    (h : parseAtom cs = some (v, rest)) : wfVal v = true := by
  unfold parseAtom at h
  split_ifs at h
  · simp only [Option.some.injEq, Prod.mk.injEq] at h
    obtain ⟨h1, _⟩ := h
    subst h1
    rfl
  · simp only [Option.some.injEq, Prod.mk.injEq] at h
    obtain ⟨h1, _⟩ := h
    subst h1
    rfl
  · simp only [Option.some.injEq, Prod.mk.injEq] at h
    obtain ⟨h1, _⟩ := h
    subst h1
    rfl
  · simp only [Option.some.injEq, Prod.mk.injEq] at h
    obtain ⟨h1, _⟩ := h
    subst h1
    rfl
  · simp only [Option.some.injEq, Prod.mk.injEq] at h
    obtain ⟨h1, _⟩ := h
    subst h1
    rfl
  · simp only [Option.some.injEq, Prod.mk.injEq] at h
    obtain ⟨h1, _⟩ := h
    subst h1
    rfl
  · obtain ⟨neg, i, f, e, hdec, hi1, hi2, hi3, hv⟩ := parseNum_shape _ _ _ h
    split at hv
    · subst hv
      rfl
    · subst hv
      have hok := parseNum_fnum_ok _ _ _ h
      simp only [wfVal, Bool.or_eq_true]
      exact Or.inr hok

/-- One item appended to a well-formed item list. -/
theorem wfItems_append_one (acc : List JsonVal) (v : JsonVal)
    (h2 : wfVal v = true) :
    wfItems acc = true → wfItems (acc ++ [v]) = true := by
  induction acc with
  | nil =>
    intro _
    simp [wfItems, h2]
  | cons w t ih =>
    intro h1
    simp only [wfItems, Bool.and_eq_true, List.cons_append] at h1 ⊢
    exact ⟨h1.1, ih h1.2⟩

/-- Inserting a well-formed value preserves member well-formedness. -/
theorem insertKey_wf (acc : List (String × JsonVal)) (k : String) (v : JsonVal)
    (hv : wfVal v = true) :
    wfMembers acc = true → wfMembers (insertKey acc k v) = true := by
  induction acc with
  | nil =>
    intro _
    simp [insertKey, wfMembers, hv]
  | cons p t ih =>
    obtain ⟨k0, v0⟩ := p
    intro h1
    simp only [wfMembers, Bool.and_eq_true] at h1
    unfold insertKey
    by_cases hk : (k0 == k) = true
    · rw [if_pos hk]
      simp only [wfMembers, Bool.and_eq_true]
      exact ⟨hv, h1.2⟩
    · rw [if_neg hk]
      simp only [wfMembers, Bool.and_eq_true]
      exact ⟨h1.1, ih h1.2⟩

/-- Insertion of a key different from `k0` preserves `k0`-freshness. -/
theorem insertKey_all (t : List (String × JsonVal)) (k k0 : String) (v : JsonVal)
    (hall : t.all (fun p => p.1 != k0) = true) (hkk : (k == k0) = false) :
    (insertKey t k v).all (fun p => p.1 != k0) = true := by
  induction t with
  | nil =>
    simp [insertKey, List.all_cons, bne, hkk]
  | cons q t2 ih =>
    obtain ⟨kq, vq⟩ := q
    simp only [List.all_cons, Bool.and_eq_true] at hall
    unfold insertKey
    by_cases hq : (kq == k) = true
    · rw [if_pos hq]
      rw [beq_iff_eq] at hq
      subst hq
      simp only [List.all_cons, Bool.and_eq_true]
      exact ⟨by simp [bne, hkk], hall.2⟩
    · rw [if_neg hq]
      simp only [List.all_cons, Bool.and_eq_true]
      exact ⟨hall.1, ih hall.2⟩

/-- Dict insertion preserves key distinctness. -/
theorem insertKey_nodup (acc : List (String × JsonVal)) (k : String) (v : JsonVal) :
    keysNodupB acc = true → keysNodupB (insertKey acc k v) = true := by
  induction acc with
  | nil =>
    intro _
    simp [insertKey, keysNodupB]
  | cons p t ih =>
    obtain ⟨k0, v0⟩ := p
    intro h1
    simp only [keysNodupB, Bool.and_eq_true] at h1
    unfold insertKey
    by_cases hk : (k0 == k) = true
    · rw [if_pos hk]
      simp only [keysNodupB, Bool.and_eq_true]
      exact ⟨h1.1, h1.2⟩
    · rw [if_neg hk]
      simp only [keysNodupB, Bool.and_eq_true]
      refine ⟨?_, ih h1.2⟩
      refine insertKey_all t k k0 v h1.1 ?_
      rw [beq_eq_false_iff_ne]
      intro hkk
      subst hkk
      simp at hk

/-- Everything the fueled parsers return is well-formed (for the list
parsers: provided the accumulator already is). -/
theorem parse_wf_all (fuel : Nat) :
    (∀ cs v rest, parseVal fuel cs = some (v, rest) → wfVal v = true) ∧
    (∀ cs acc l rest, parseItems fuel cs acc = some (l, rest) →
      wfItems acc = true → wfItems l = true) ∧
    (∀ cs acc m rest, parseMembers fuel cs acc = some (m, rest) →
      keysNodupB acc = true → wfMembers acc = true →
      keysNodupB m = true ∧ wfMembers m = true) := by
  induction fuel with
  | zero =>
    refine ⟨?_, ?_, ?_⟩
    · intro cs v rest h
      simp [parseVal] at h
    · intro cs acc l rest h
      simp [parseItems] at h
    · intro cs acc m rest h
      simp [parseMembers] at h
  | succ f ih =>
    obtain ⟨ihV, ihI, ihM⟩ := ih
    refine ⟨?_, ?_, ?_⟩
    · intro cs v rest h
      cases cs with
      | nil => simp [parseVal] at h
      | cons c r =>
        rw [parseVal] at h
        by_cases hc1 : (c == '\x7b') = true
        · rw [if_pos hc1] at h
          split at h
          · simp only [Option.some.injEq, Prod.mk.injEq] at h
            obtain ⟨h1, _⟩ := h
            subst h1
            rfl
          · simp only [Option.map_eq_some'] at h
            obtain ⟨⟨mm, rr⟩, hp, hmk⟩ := h
            simp only [Prod.mk.injEq] at hmk
            obtain ⟨h1, _⟩ := hmk
            subst h1
            have hres := ihM _ [] mm rr hp rfl rfl
            simp only [wfVal, Bool.and_eq_true]
            exact hres
        · rw [if_neg hc1] at h
          by_cases hc2 : (c == '[') = true
          · rw [if_pos hc2] at h
            split at h
            · simp only [Option.some.injEq, Prod.mk.injEq] at h
              obtain ⟨h1, _⟩ := h
              subst h1
              rfl
            · simp only [Option.map_eq_some'] at h
              obtain ⟨⟨ll, rr⟩, hp, hmk⟩ := h
              simp only [Prod.mk.injEq] at hmk
              obtain ⟨h1, _⟩ := hmk
              subst h1
              have hres := ihI _ [] ll rr hp rfl
              simp only [wfVal]
              exact hres
          · rw [if_neg hc2] at h
            by_cases hc3 : (c == '"') = true
            · rw [if_pos hc3] at h
              simp only [Option.map_eq_some'] at h
              obtain ⟨⟨body, rr⟩, hp, hmk⟩ := h
              simp only [Prod.mk.injEq] at hmk
              obtain ⟨h1, _⟩ := hmk
              subst h1
              rfl
            · rw [if_neg hc3] at h
              exact parseAtom_wf _ _ _ h
    · intro cs acc l rest h hacc
      rw [parseItems] at h
      split at h
      · cases h
      · rename_i v r heq
        have hv := ihV _ _ _ heq
        split at h
        · exact ihI _ _ _ _ h (wfItems_append_one acc v hv hacc)
        · simp only [Option.some.injEq, Prod.mk.injEq] at h
          obtain ⟨h1, _⟩ := h
          subst h1
          exact wfItems_append_one acc v hv hacc
        · cases h
    · intro cs acc m rest h hnd hacc
      cases cs with
      | nil =>
        rw [parseMembers] at h
        cases h
      | cons c r =>
        rw [parseMembers] at h
        by_cases hc : (c == '"') = true
        · rw [if_pos hc] at h
          split at h
          · cases h
          · rename_i key r1 hkey
            split at h
            · rename_i r2
              split at h
              · cases h
              · rename_i v r3 hval
                have hv := ihV _ _ _ hval
                split at h
                · exact ihM _ _ _ _ h (insertKey_nodup acc _ v hnd)
                    (insertKey_wf acc _ v hv hacc)
                · simp only [Option.some.injEq, Prod.mk.injEq] at h
                  obtain ⟨h1, _⟩ := h
                  subst h1
                  exact ⟨insertKey_nodup acc _ v hnd, insertKey_wf acc _ v hv hacc⟩
                · cases h
            · cases h
        · rw [if_neg hc] at h
          cases h

/-- Values out of `json.loads` are well-formed. -/
theorem pyJsonLoads_wf (s : String) (v : JsonVal) (h : pyJsonLoads s = some v) :
    wfVal v = true := by
  unfold pyJsonLoads at h
  split at h
  all_goals first
    | cases h
    | (rename_i heq
       split at h
       · simp only [Option.some.injEq] at h
         subst h
         exact (parse_wf_all _).1 _ _ _ heq
       · cases h)

/-- Field access on a well-formed member list yields a well-formed value. -/
theorem objGet_wf (m : List (String × JsonVal)) (k : String) (v : JsonVal)
    (hm : wfMembers m = true) (h : objGet? m k = some v) : wfVal v = true := by
  induction m with
  | nil => cases h
  | cons p t ih =>
    obtain ⟨k0, v0⟩ := p
    simp only [wfMembers, Bool.and_eq_true] at hm
    unfold objGet? at h
    by_cases hk : (k0 == k) = true
    · rw [if_pos hk] at h
      simp only [Option.some.injEq] at h
      subst h
      exact hm.1
    · rw [if_neg hk] at h
      exact ih hm.2 h

/-- `dict.get` with a well-formed default on a well-formed member list. -/
theorem wf_objGetD (m : List (String × JsonVal)) (key : String) (d : JsonVal)
    (hm : wfMembers m = true) (hd : wfVal d = true) :
    wfVal (objGetD m key d) = true := by
  unfold objGetD
  cases hg : objGet? m key with
  | none => simpa using hd
  | some v =>
    have hv := objGet_wf m key v hm hg
    simpa using hv

/-! ## Round-trip machinery: candidate extraction on serialized objects -/

/-- The first index of the head character is zero. -/
theorem firstIdx_head (c : Char) (t : List Char) : firstIdx c (c :: t) = some 0 := by
  simp [firstIdx]

/-- The last index of a final character is the length of what precedes it. -/
theorem lastIdx_last (c : Char) (l : List Char) :
    lastIdx c (l ++ [c]) = some l.length := by
  unfold lastIdx
  rw [List.reverse_append]
  simp only [List.reverse_cons, List.reverse_nil, List.nil_append,
    List.singleton_append]
  rw [firstIdx_head]
  simp

/-- The greedy brace regex matches a whole `{...}` string. -/
theorem braceCandidate_objEnc (mid : List Char) :
    braceCandidate (String.mk ('\x7b' :: (mid ++ ['\x7d']))) =
      some (String.mk ('\x7b' :: (mid ++ ['\x7d']))) := by
  unfold braceCandidate
  rw [show (String.mk ('\x7b' :: (mid ++ ['\x7d']))).data =
      '\x7b' :: (mid ++ ['\x7d']) from rfl]
  rw [firstIdx_head]
  have hla : lastIdx '\x7d' ('\x7b' :: (mid ++ ['\x7d'])) = some (mid.length + 1) := by
    have h1 := lastIdx_last '\x7d' ('\x7b' :: mid)
    simpa [List.cons_append, List.length_cons] using h1
  rw [hla]
  show (if 0 < mid.length + 1 then
      some (String.mk ((('\x7b' :: (mid ++ ['\x7d'])).drop 0).take
        (mid.length + 1 + 1 - 0)))
    else none) = some (String.mk ('\x7b' :: (mid ++ ['\x7d'])))
  rw [if_pos (by omega)]
  rw [List.drop_zero, List.take_of_length_le
    (by simp only [List.length_cons, List.length_append, List.length_nil]; omega)]

/-- With no fence tag in the text, extraction of a serialized non-empty
object returns the whole text. -/
theorem extractCandidate_objEnc (k : String) (v : JsonVal)
    (t : List (String × JsonVal))
    (hf : pyContains (pyJsonDumps (.obj ((k, v) :: t))) fenceTag = false) :
    extractCandidate (pyJsonDumps (.obj ((k, v) :: t))) =
      pyJsonDumps (.obj ((k, v) :: t)) := by
  unfold extractCandidate
  simp only [hf, Bool.false_eq_true, if_false]
  rw [show pyJsonDumps (.obj ((k, v) :: t)) = String.mk ('\x7b' ::
      ((encStr k ++ ':' :: ' ' :: encVal v ++ encMembersRest t) ++ ['\x7d']))
    from rfl]
  rw [braceCandidate_objEnc]

/-- `result.get` on the record constructor reads the stored fields back. -/
theorem buildResult_mkRecord (a b c d e f g : JsonVal) (s : String) :
    buildResult [("food_name", a), ("freshness_level", b), ("freshness_score", c),
      ("estimated_calories", d), ("nutrition_summary", e), ("analysis_summary", f),
      ("recommendations", g)] s = mkRecord a b c d e f g := rfl

/-- The record constructor is well-formed when its fields are. -/
theorem wf_mkRecord (a b c d e f g : JsonVal)
    (ha : wfVal a = true) (hb : wfVal b = true) (hc : wfVal c = true)
    (hd : wfVal d = true) (he : wfVal e = true) (hf : wfVal f = true)
    (hg : wfVal g = true) :
    wfVal (mkRecord a b c d e f g) = true := by
  have hnd : keysNodupB [("food_name", a), ("freshness_level", b),
      ("freshness_score", c), ("estimated_calories", d), ("nutrition_summary", e),
      ("analysis_summary", f), ("recommendations", g)] = true := rfl
  have hwm : wfMembers [("food_name", a), ("freshness_level", b),
      ("freshness_score", c), ("estimated_calories", d), ("nutrition_summary", e),
      ("analysis_summary", f), ("recommendations", g)] = true := by
    simp only [wfMembers, Bool.and_eq_true]
    exact ⟨ha, hb, hc, hd, he, hf, hg, trivial⟩
  show (keysNodupB [("food_name", a), ("freshness_level", b), ("freshness_score", c),
      ("estimated_calories", d), ("nutrition_summary", e), ("analysis_summary", f),
      ("recommendations", g)] &&
    wfMembers [("food_name", a), ("freshness_level", b), ("freshness_score", c),
      ("estimated_calories", d), ("nutrition_summary", e), ("analysis_summary", f),
      ("recommendations", g)]) = true
  rw [hnd, hwm]
  rfl

/-- Re-running the normalizer on a serialized record reproduces the record,
absent the fence tag. -/
theorem parse_dumps_mkRecord (a b c d e f g : JsonVal)
    (hwf : wfVal (mkRecord a b c d e f g) = true)
    (hfence : pyContains (pyJsonDumps (mkRecord a b c d e f g)) fenceTag = false) :
    parse_gemini_response (pyJsonDumps (mkRecord a b c d e f g)) =
      .ok (mkRecord a b c d e f g) := by
  unfold parse_gemini_response
  have hext : extractCandidate (pyJsonDumps (mkRecord a b c d e f g)) =
      pyJsonDumps (mkRecord a b c d e f g) :=
    extractCandidate_objEnc ("food_name") a
      [("freshness_level", b), ("freshness_score", c), ("estimated_calories", d),
        ("nutrition_summary", e), ("analysis_summary", f), ("recommendations", g)]
      hfence
  rw [hext, loads_dumps _ hwf]
  show Except.ok (buildResult [("food_name", a), ("freshness_level", b),
    ("freshness_score", c), ("estimated_calories", d), ("nutrition_summary", e),
    ("analysis_summary", f), ("recommendations", g)]
    (pyJsonDumps (mkRecord a b c d e f g))) = _
  rw [buildResult_mkRecord]

/-- C8: counterexample. For the reply `t₀` = a fenced block holding the
non-JSON word `hello`, the normalizer answers the full default record, but
serializing that record and re-normalizing does not reproduce it: the
serialized `analysis_summary` still contains the fence tag, so the second
pass re-enters the fence branch, fails to parse, and falls back with
`analysis_summary` set to the serialized text — a different value. -/
theorem C8_counterexample :
    parse_gemini_response ("```json\nhello\n```") =
      .ok (fallbackRecord ("```json\nhello\n```")) ∧
    parse_gemini_response (pyJsonDumps (fallbackRecord ("```json\nhello\n```"))) =
      .ok (fallbackRecord (pyJsonDumps (fallbackRecord ("```json\nhello\n```")))) ∧
    (((objGetV? (fallbackRecord ("```json\nhello\n```")) ("analysis_summary")).bind
        strOf ==
      (objGetV? (fallbackRecord (pyJsonDumps (fallbackRecord ("```json\nhello\n```"))))
        ("analysis_summary")).bind strOf) = false) :=
  ⟨rfl, rfl, rfl⟩

/-- C8: amended claim. Normalization by `parse_gemini_response` (main.py) is
idempotent for every reply whose normalized record serializes without the
fence tag: running the normalizer on `json.dumps` of its own output returns
exactly that output. (The original claim fails only when the serialized
record itself contains the fence tag, as in the counterexample; the
serverless handler's verbatim normalizer is a separate correction recorded
in C3.) -/
theorem C8_amended (t : String) (r : JsonVal)
    (h : parse_gemini_response t = .ok r)
    (hfence : pyContains (pyJsonDumps r) fenceTag = false) :
    parse_gemini_response (pyJsonDumps r) = .ok r := by
  unfold parse_gemini_response at h
  split at h
  · simp only [Except.ok.injEq] at h
    subst h
    unfold fallbackRecord at hfence ⊢
    exact parse_dumps_mkRecord _ _ _ _ _ _ _ rfl hfence
  · rename_i result heq
    simp only [Except.ok.injEq] at h
    subst h
    have hwfm : wfMembers result = true := by
      have h2 := pyJsonLoads_wf _ _ heq
      simp only [wfVal, Bool.and_eq_true] at h2
      exact h2.2
    unfold buildResult at hfence ⊢
    exact parse_dumps_mkRecord _ _ _ _ _ _ _
      (wf_mkRecord _ _ _ _ _ _ _
        (wf_objGetD result _ _ hwfm rfl) (wf_objGetD result _ _ hwfm rfl)
        (wf_objGetD result _ _ hwfm rfl) (wf_objGetD result _ _ hwfm rfl)
        (wf_objGetD result _ _ hwfm rfl) (wf_objGetD result _ _ hwfm rfl)
        (wf_objGetD result _ _ hwfm rfl)) hfence
  · cases h

/-- C8: witness for the amended claim at the reply `"x"`: the normalizer
falls back to the default record, whose serialization has no fence tag, and
re-normalizing that serialization returns the same record. -/
theorem C8_amended_witness :
    parse_gemini_response ("x") = .ok (fallbackRecord ("x")) ∧
    pyContains (pyJsonDumps (fallbackRecord ("x"))) fenceTag = false ∧
    parse_gemini_response (pyJsonDumps (fallbackRecord ("x"))) =
      .ok (fallbackRecord ("x")) :=
  ⟨rfl, rfl, C8_amended ("x") (fallbackRecord ("x")) rfl rfl⟩
